import Mathlib

/-!
# ApvTimingAnalysis: tick-mark edge analysis of a sampled waveform

Shallow embedding of `DQM/SiStripCommissioningAnalysis/src/ApvTimingAnalysis.cc`.

Modelling conventions.

* `float`/`double` quantities are exact rationals (`ℚ`); the literals `1.e9`, `50.`, `5.`,
  `2.` are the corresponding rationals.  `sqrt` from `<cmath>` is a parameter `sqrtf`.
* `uint16_t` quantities are natural numbers, reduced modulo `2^16` where the source
  narrows (`static_cast<uint16_t>( histo->GetNbinsX() )`).
* A `TProfile` is the list of its bins `1 .. GetNbinsX()`; list position `i` is the bin
  that the source reads with `GetBinContent(i+1)`, `GetBinError(i+1)`, `GetBinEntries(i+1)`.
* `std::vector` is `List`; `std::map<uint16_t,float>` is the list of its (key, value) pairs
  in ascending key order.
* Behaviour that C++ leaves undefined is an explicit `Fault`: `operator[]` past the end of
  a vector, and advancing a map iterator whose element has been erased.
* The diagnostic stream `cerr` is not modelled.
-/

namespace ApvTimingAnalysis

/-- One histogram bin: `GetBinContent`, `GetBinError`, `GetBinEntries`. -/
structure Bin where
  content : ℚ
  error : ℚ
  entries : ℕ
deriving DecidableEq

/-- The profile histogram handed to the analysis, as the list of its bins. -/
structure TProfile where
  bins : List Bin

/-- Number of bins of the histogram (`histo->GetNbinsX()`). -/
def TProfile.GetNbinsX (histo : TProfile) : ℕ := histo.bins.length

/-- The output record `ApvTimingAnalysis::Monitorables`. -/
structure Monitorables where
  pllCoarse_ : ℕ
  pllFine_ : ℕ
  delay_ : ℕ
  error_ : ℚ
  base_ : ℚ
  peak_ : ℚ
  height_ : ℚ
deriving DecidableEq

/-- Undefined behaviour of the C++ source, made explicit. -/
inductive Fault where
  /-- An `operator[]` read at `index` of a vector holding `size` elements, `size ≤ index`. -/
  | outOfRange (index size : ℕ)
  /-- The loop increment `iter++` applied after `edges.erase(iter)` of the element `key`. -/
  | erasedIterator (key : ℕ)
deriving DecidableEq

/-- Read `v[i]` of a vector: a fault when `i` is past the end. -/
def vecAt {α : Type} (v : List α) (i : ℕ) : Except Fault α :=
  match v[i]? with
  | some x => .ok x
  | none => .error (.outOfRange i v.length)

/-! ## Lines 18-47: ingestion -/

/-- Line 21: `uint16_t nbins = static_cast<uint16_t>( histo->GetNbinsX() )`. -/
def nbins (histo : TProfile) : ℕ := histo.GetNbinsX % 65536

/-- Lines 28-31: the bins `1 .. nbins` that the loop pushes into the three vectors.  (The
counter `non_zero` of line 35 is never read and is left out.) -/
def ingested (histo : TProfile) : List Bin := histo.bins.take (nbins histo)

/-- The vector `bin_contents` after the loop. -/
def bin_contents (histo : TProfile) : List ℚ := (ingested histo).map Bin.content

/-- The vector `bin_errors` after the loop. -/
def bin_errors (histo : TProfile) : List ℚ := (ingested histo).map Bin.error

/-- The vector `bin_entries` after the loop. -/
def bin_entries (histo : TProfile) : List ℕ := (ingested histo).map Bin.entries

/-- Lines 32-33: update of `max` by one bin. -/
def maxStep (max : ℚ) (b : Bin) : ℚ :=
  if b.entries ≠ 0 then (if b.content > max then b.content else max) else max

/-- Lines 32-34: update of `min` by one bin. -/
def minStep (min : ℚ) (b : Bin) : ℚ :=
  if b.entries ≠ 0 then (if b.content < min then b.content else min) else min

/-- Value of `max` after the ingestion loop (initial value `-1.e9`). -/
def scanMax (histo : TProfile) : ℚ := (ingested histo).foldl maxStep (-1000000000)

/-- Value of `min` after the ingestion loop (initial value `1.e9`). -/
def scanMin (histo : TProfile) : ℚ := (ingested histo).foldl minStep 1000000000

/-! ## Lines 49-71: range, threshold, classification -/

/-- Line 50: `range = max - min`. -/
def range (histo : TProfile) : ℚ := scanMax histo - scanMin histo

/-- Line 51: `threshold = min + range / 2.`. -/
def threshold (histo : TProfile) : ℚ := scanMin histo + range histo / 2

/-- Lines 63-71: the classification loop; returns `(tick, base)` in push order. -/
def classify (threshold : ℚ) : List Bin → List ℚ × List ℚ
  | [] => ([], [])
  | b :: bs =>
    let r := classify threshold bs
    if b.entries ≠ 0 then
      if b.content < threshold then (r.1, b.content :: r.2) else (b.content :: r.1, r.2)
    else r

/-- The vector `tick` before sorting. -/
def tickSamples (histo : TProfile) : List ℚ := (classify (threshold histo) (ingested histo)).1

/-- The vector `base` before sorting. -/
def baseSamples (histo : TProfile) : List ℚ := (classify (threshold histo) (ingested histo)).2

/-! ## Lines 75-91: median levels -/

/-- Lines 78-79: `sort( v.begin(), v.end() )`, ascending. -/
def sortAscending (v : List ℚ) : List ℚ := v.insertionSort (· ≤ ·)

/-- Lines 76-81: level of a sample vector: `0.` when empty, otherwise the element of the
sorted vector at `size%2 ? size/2 : size/2`. -/
def medianLevel (v : List ℚ) : ℚ :=
  let s := sortAscending v
  if s.isEmpty then 0
  else s.getD (if s.length % 2 ≠ 0 then s.length / 2 else s.length / 2) 0

/-- Line 80: `tickmark`. -/
def tickmark (histo : TProfile) : ℚ := medianLevel (tickSamples histo)

/-- Line 81: `baseline`. -/
def baseline (histo : TProfile) : ℚ := medianLevel (baseSamples histo)

/-! ## Lines 93-109: spread of the baseline samples -/

/-- Lines 94-109: `baseline_rms` of the (sorted) vector `base`. -/
def rmsOf (sqrtf : ℚ → ℚ) (base : List ℚ) : ℚ :=
  let sum : ℚ := base.foldl (fun mean x => mean + x) 0
  let sum2 : ℚ := base.foldl (fun mean2 x => mean2 + x * x) 0
  let mean : ℚ := if ¬ base.isEmpty then sum / base.length else 0
  let mean2 : ℚ := if ¬ base.isEmpty then sum2 / base.length else 0
  if mean2 > mean * mean then sqrtf (mean2 - mean * mean) else 0

/-- Line 107-109: `baseline_rms`. -/
def baseline_rms (sqrtf : ℚ → ℚ) (histo : TProfile) : ℚ :=
  rmsOf sqrtf (sortAscending (baseSamples histo))

/-! ## Lines 112-124: edge scan -/

/-- Lines 115-123: body of the edge scan at `ibin`; the indices `ibin-1`, `ibin+1` are
inside the vectors because `1 ≤ ibin < nbins-1`. -/
def edgeAt (contents : List ℚ) (entries : List ℕ) (rms : ℚ) (ibin : ℕ) : Option (ℕ × ℚ) :=
  if entries.getD (ibin + 1) 0 ≠ 0 ∧ entries.getD (ibin - 1) 0 ≠ 0 then
    let derivative := contents.getD (ibin + 1) 0 - contents.getD (ibin - 1) 0
    if derivative > 5 * rms then some (ibin, derivative) else none
  else none

/-- Lines 113-124: the map `edges` after `for ( ibin = 1; ibin < nbins-1; ibin++ )`. -/
def findEdges (n : ℕ) (contents : List ℚ) (entries : List ℕ) (rms : ℚ) : List (ℕ × ℚ) :=
  (List.range' 1 (n - 1 - 1)).filterMap (edgeAt contents entries rms)

/-- The candidate edges of a histogram. -/
def candidateEdges (sqrtf : ℚ → ℚ) (histo : TProfile) : List (ℕ × ℚ) :=
  findEdges (nbins histo) (bin_contents histo) (bin_entries histo) (baseline_rms sqrtf histo)

/-! ## Lines 126-139: edge validation -/

/-- Lines 131-132: one step `ii` of the window loop for the edge at `e`. -/
def windowStep (contents : List ℚ) (entries : List ℕ) (floor : ℚ) (e : ℕ)
    (valid : Bool) (ii : ℕ) : Except Fault Bool :=
  match vecAt entries (e + ii) with
  | .error f => .error f
  | .ok n =>
    if n ≠ 0 then
      match vecAt contents (e + ii) with
      | .error f => .error f
      | .ok c => if c < floor then .ok false else .ok valid
    else .ok valid

/-- Run the window loop over the offsets `iis`, starting from the flag `valid`. -/
def windowLoop (contents : List ℚ) (entries : List ℕ) (floor : ℚ) (e : ℕ) :
    Bool → List ℕ → Except Fault Bool
  | valid, [] => .ok valid
  | valid, ii :: iis =>
    match windowStep contents entries floor e valid ii with
    | .error f => .error f
    | .ok valid' => windowLoop contents entries floor e valid' iis

/-- Lines 129-133: `valid` after `for ( ii = 10; ii < 40; ii++ )`. -/
def windowValid (contents : List ℚ) (entries : List ℕ) (floor : ℚ) (e : ℕ) :
    Except Fault Bool :=
  windowLoop contents entries floor e true (List.range' 10 30)

/-- Lines 127-139: the loop over the map.  An invalid edge is erased through the loop
iterator, which the loop header then increments: a fault. -/
def checkEdges (contents : List ℚ) (entries : List ℕ) (floor : ℚ) :
    List (ℕ × ℚ) → Except Fault (List (ℕ × ℚ))
  | [] => .ok []
  | edge :: rest =>
    match windowValid contents entries floor edge.1 with
    | .error f => .error f
    | .ok valid =>
      if !valid then .error (.erasedIterator edge.1)
      else
        match checkEdges contents entries floor rest with
        | .error f => .error f
        | .ok kept => .ok (edge :: kept)

/-- The map `edges` after the validation loop, for a histogram. -/
def validatedEdges (sqrtf : ℚ → ℚ) (histo : TProfile) : Except Fault (List (ℕ × ℚ)) :=
  checkEdges (bin_contents histo) (bin_entries histo)
    (baseline histo + 5 * baseline_rms sqrtf histo) (candidateEdges sqrtf histo)

/-! ## Lines 148-163: result assembly -/

/-- Lines 149-163: the assignments to `mons`. -/
def setMonitorables (edges : List (ℕ × ℚ)) (baseline tickmark : ℚ) (mons : Monitorables) :
    Monitorables :=
  match edges with
  | first :: _ =>
    { pllCoarse_ := first.1 / 24
      pllFine_ := first.1 % 24
      delay_ := first.1
      error_ := 0
      base_ := baseline
      peak_ := tickmark
      height_ := tickmark - baseline }
  | [] =>
    { mons with
      base_ := baseline
      peak_ := tickmark
      height_ := tickmark - baseline }

/-- Lines 13-165: `ApvTimingAnalysis::analysis( const TProfile*, Monitorables& )`; the result
is the record `mons` on return. -/
def analysis (sqrtf : ℚ → ℚ) (histo : TProfile) (mons : Monitorables) :
    Except Fault Monitorables :=
  if (bin_contents histo).length < 100 then .ok mons
  else if range histo < 50 then .ok mons
  else if tickmark histo - baseline histo < 50 then .ok mons
  else
    match validatedEdges sqrtf histo with
    | .error f => .error f
    | .ok edges => .ok (setMonitorables edges (baseline histo) (tickmark histo) mons)

/-- The three early returns (lines 42-47, 52-56, 84-91) are all not taken. -/
def passesGates (histo : TProfile) : Prop :=
  ¬ (bin_contents histo).length < 100 ∧ ¬ range histo < 50 ∧
    ¬ tickmark histo - baseline histo < 50

instance (histo : TProfile) : Decidable (passesGates histo) := by
  unfold passesGates; infer_instance

deriving instance DecidableEq for Except

/-! ## Lines 180-192: the vector overload -/

/-- `v.resize( n, x )` of a `std::vector`. -/
def resize {α : Type} (v : List α) (n : ℕ) (x : α) : List α :=
  v.take n ++ List.replicate (n - v.length) x

/-- Lines 182-192: `ApvTimingAnalysis::analysis( const vector<const TProfile*>&,
vector<unsigned short>& )`; the result is the vector `monitorables` on return.  The
default constructor of `Monitorables` is declared in the header, which is not part of the
source: the default-constructed record is the parameter `dflt`.  An assignment to an
`unsigned short` element reduces modulo `2^16`. -/
def legacyAnalysis (sqrtf : ℚ → ℚ) (dflt : Monitorables) (histos : List TProfile)
    (monitorables : List ℕ) : Except Fault (List ℕ) :=
  let run : Except Fault Monitorables :=
    match histos with
    | [] => .ok dflt
    | histo :: _ => analysis sqrtf histo dflt
  match run with
  | .error f => .error f
  | .ok mons =>
    .ok (((resize monitorables 2 0).set 0 (mons.pllCoarse_ % 65536)).set 1
      (mons.pllFine_ % 65536))

/-! ## Concrete inputs -/

/-- Downward search for the integer square root of `n`, starting at `k`. -/
def isqrtAux (n : ℕ) : ℕ → ℕ
  | 0 => 0
  | k + 1 => if (k + 1) * (k + 1) ≤ n then k + 1 else isqrtAux n k

/-- Integer square root by downward search. -/
def isqrt (n : ℕ) : ℕ := isqrtAux n n

/-- A rational stand-in for `sqrt` at concrete inputs: the integer square roots of the
numerator and of the denominator (exact on squares of rationals). -/
def sqrtQ (x : ℚ) : ℚ := (isqrt x.num.toNat : ℚ) / (isqrt x.den : ℚ)

/-- A populated bin (10 entries) holding `c`. -/
def filled (c : ℚ) : Bin := { content := c, error := 0, entries := 10 }

/-- An unpopulated bin. -/
def hole : Bin := { content := 0, error := 0, entries := 0 }

/-- A record with every field zero. -/
def zeroMons : Monitorables :=
  { pllCoarse_ := 0, pllFine_ := 0, delay_ := 0, error_ := 0, base_ := 0, peak_ := 0,
    height_ := 0 }

/-- A record with recognisable field values. -/
def markedMons : Monitorables :=
  { pllCoarse_ := 7, pllFine_ := 8, delay_ := 9, error_ := 1, base_ := 2, peak_ := 3,
    height_ := 4 }

/-- 99 populated bins rising from 0 to 980 in steps of 10. -/
def shortRamp : TProfile := { bins := (List.range 99).map (fun i => filled (10 * i)) }

/-- 100 populated bins all holding 100. -/
def flatLow : TProfile := { bins := List.replicate 100 (filled 100) }

/-- 100 populated bins all holding 2e9. -/
def flatHigh : TProfile := { bins := List.replicate 100 (filled 2000000000) }

/-- 100 populated bins: one at 0, 49 at 45, 49 at 60, one at 100. -/
def closePlateaus : TProfile :=
  { bins := filled 0 :: List.replicate 49 (filled 45) ++ List.replicate 49 (filled 60) ++
      [filled 100] }

/-- 200 bins, populated only at 49 and 79 (holding 0) and at 51 and 81 (holding 100). -/
def twoEdges : TProfile :=
  { bins := List.replicate 49 hole ++ [filled 0, hole, filled 100] ++ List.replicate 27 hole ++
      [filled 0, hole, filled 100] ++ List.replicate 118 hole }

/-- 100 populated bins: 50 holding 100 followed by 50 holding 0 (a falling step). -/
def stepDown : TProfile :=
  { bins := List.replicate 50 (filled 100) ++ List.replicate 50 (filled 0) }

/-- 200 bins, populated only at 124 (holding 0) and at 126 (holding 100). -/
def edgeAt125 : TProfile :=
  { bins := List.replicate 124 hole ++ [filled 0, hole, filled 100] ++ List.replicate 73 hole }

/-- 100 populated bins: 50 holding 0 followed by 50 holding 100 (a rising step). -/
def risingStep : TProfile :=
  { bins := List.replicate 50 (filled 0) ++ List.replicate 50 (filled 100) }

/-- 65636 bins: the 100 bins of `risingStep`, then populated bins holding 7, 7 and 107,
then 65533 unpopulated bins. -/
def pastUint16 : TProfile :=
  { bins := risingStep.bins ++ ([filled 7, filled 7, filled 107] ++ List.replicate 65533 hole) }

/-- 200 populated bins: a short tick holding 100 at bins 20..25 and a long tick holding 100
at bins 100..199, on a baseline that alternates between -1 (even bins) and 1 (odd bins). -/
def twoTicks : TProfile :=
  { bins := (List.range 200).map (fun i =>
      if (20 ≤ i ∧ i < 26) ∨ 100 ≤ i then filled 100
      else if i % 2 = 0 then filled (-1) else filled 1) }

/-- 100 populated bins: 90 holding 0 followed by 10 holding 100 (a rising step 10 bins
before the end). -/
def lateStep : TProfile :=
  { bins := List.replicate 90 (filled 0) ++ List.replicate 10 (filled 100) }

/-- 50 populated bins: 25 holding 0 followed by 25 holding 100. -/
def halfStep : TProfile :=
  { bins := List.replicate 25 (filled 0) ++ List.replicate 25 (filled 100) }

/-- 65586 bins: the 50 bins of `halfStep`, then 65536 unpopulated bins. -/
def halfStepPast : TProfile :=
  { bins := halfStep.bins ++ List.replicate 65536 hole }

/-- 100 populated bins: 50 holding 2e9 followed by 50 holding 3e9. -/
def beyondSentinel : TProfile :=
  { bins := List.replicate 50 (filled 2000000000) ++ List.replicate 50 (filled 3000000000) }

/-- 100 unpopulated bins. -/
def hundredHoles : TProfile := { bins := List.replicate 100 hole }

/-- 65636 bins: the 100 bins of `risingStep`, then 65536 unpopulated bins. -/
def stepThenHoles : TProfile :=
  { bins := risingStep.bins ++ (List.replicate 100 hole ++ List.replicate 65436 hole) }

/-- The bins of `stepThenHoles` in another order: the 65536 unpopulated bins first, then
the 100 bins of `risingStep`. -/
def holesThenStep : TProfile :=
  { bins := List.replicate 100 hole ++ (List.replicate 65436 hole ++ risingStep.bins) }

/-- The bins of `twoEdges` with other contents in the unpopulated bins and other errors
everywhere. -/
def twoEdgesScribbled : TProfile :=
  { bins := twoEdges.bins.map (fun b =>
      if b.entries = 0 then { content := 12345, error := 3, entries := 0 }
      else { b with error := 9 }) }

/-- A second rational stand-in for `sqrt`, rounded down: the integer square root of
numerator times denominator, over the denominator. -/
def sqrtDown (x : ℚ) : ℚ := (isqrt (x.num.toNat * x.den) : ℚ) / (x.den : ℚ)

/-- The noise-free scenario: 200 bins with 10 entries each, bins 0..99 holding 100 and
bins 100..199 holding 500. -/
def cleanStep : TProfile :=
  { bins := List.replicate 100 (filled 100) ++ List.replicate 100 (filled 500) }

/-- An instance of the scenario with noise: 200 bins with 10 entries each, bins 0..99
holding 100 except bins 90 and 99, which hold 101, and bins 100..199 holding 500. -/
def noisyStep : TProfile :=
  { bins := (List.range 200).map (fun i =>
      if 100 ≤ i then filled 500 else if i = 90 ∨ i = 99 then filled 101 else filled 100) }

/-- The scenario of the specification: 200 bins with 10 entries each, the contents of bins
0..99 within `100 ± 2` and the contents of bins 100..199 within `500 ± 2`. -/
def twoPlateaus (histo : TProfile) : Prop :=
  histo.bins.length = 200 ∧
  (∀ b ∈ histo.bins.take 100, b.entries = 10 ∧ 98 ≤ b.content ∧ b.content ≤ 102) ∧
  (∀ b ∈ histo.bins.drop 100, b.entries = 10 ∧ 498 ≤ b.content ∧ b.content ≤ 502)

instance (histo : TProfile) : Decidable (twoPlateaus histo) := by
  unfold twoPlateaus; infer_instance

/-! ## Comparing two histograms -/

/-- A bin with the constant `c` added to its content. -/
def Bin.shift (c : ℚ) (b : Bin) : Bin := { b with content := b.content + c }

/-- The histogram with the constant `c` added to the content of every bin. -/
def translate (c : ℚ) (histo : TProfile) : TProfile := { bins := histo.bins.map (Bin.shift c) }


/-- Two bins carry the same data: the same number of entries and, when populated, the
same content (the errors, and the contents of unpopulated bins, are free). -/
def sameData (a b : Bin) : Prop := a.entries = b.entries ∧ (a.entries ≠ 0 → a.content = b.content)

instance (a b : Bin) : Decidable (sameData a b) := by
  unfold sameData; infer_instance

/-! ## The noise estimate in the words of the specification -/

/-- Mean `E[x]` over a sample list (0 for the empty list). -/
def sampleMean (v : List ℚ) : ℚ := if v = [] then 0 else v.sum / v.length

/-- Mean of squares `E[x^2]` over a sample list (0 for the empty list). -/
def sampleMeanSq (v : List ℚ) : ℚ :=
  if v = [] then 0 else (v.map (fun x => x * x)).sum / v.length

/-! ## Ingestion lemmas -/

theorem nbins_le (histo : TProfile) : nbins histo ≤ histo.GetNbinsX :=
  Nat.mod_le _ _

theorem length_ingested (histo : TProfile) : (ingested histo).length = nbins histo := by
  have := nbins_le histo
  simp only [ingested, List.length_take, TProfile.GetNbinsX] at *
  omega

theorem length_bin_contents (histo : TProfile) : (bin_contents histo).length = nbins histo := by
  simp [bin_contents, length_ingested]

theorem length_bin_entries (histo : TProfile) : (bin_entries histo).length = nbins histo := by
  simp [bin_entries, length_ingested]

theorem ingested_subset (histo : TProfile) {b : Bin} (hb : b ∈ ingested histo) :
    b ∈ histo.bins :=
  List.mem_of_mem_take hb

/-- The ingestion loop leaves `max` at its initial value or at the content of a populated
bin that it has read. -/
theorem foldl_maxStep_cases (bs : List Bin) (init : ℚ) :
    bs.foldl maxStep init = init ∨
      ∃ b ∈ bs, b.entries ≠ 0 ∧ bs.foldl maxStep init = b.content := by
  induction bs generalizing init with
  | nil => exact Or.inl rfl
  | cons b bs ih =>
    rw [List.foldl_cons]
    rcases ih (maxStep init b) with h | ⟨c, hc, hne, h⟩
    · by_cases hb : b.entries ≠ 0
      · by_cases hgt : b.content > init
        · right
          refine ⟨b, List.mem_cons_self _ _, hb, ?_⟩
          rw [h]; simp [maxStep, hb, hgt]
        · left
          rw [h]; simp [maxStep, hb, hgt]
      · left
        rw [h]; simp only [maxStep, if_neg hb]
    · exact Or.inr ⟨c, List.mem_cons_of_mem _ hc, hne, h⟩

/-- The ingestion loop leaves `min` at its initial value or at the content of a populated
bin that it has read. -/
theorem foldl_minStep_cases (bs : List Bin) (init : ℚ) :
    bs.foldl minStep init = init ∨
      ∃ b ∈ bs, b.entries ≠ 0 ∧ bs.foldl minStep init = b.content := by
  induction bs generalizing init with
  | nil => exact Or.inl rfl
  | cons b bs ih =>
    rw [List.foldl_cons]
    rcases ih (minStep init b) with h | ⟨c, hc, hne, h⟩
    · by_cases hb : b.entries ≠ 0
      · by_cases hlt : b.content < init
        · right
          refine ⟨b, List.mem_cons_self _ _, hb, ?_⟩
          rw [h]; simp [minStep, hb, hlt]
        · left
          rw [h]; simp [minStep, hb, hlt]
      · left
        rw [h]; simp only [minStep, if_neg hb]
    · exact Or.inr ⟨c, List.mem_cons_of_mem _ hc, hne, h⟩

/-! ## The early returns -/

/-- C1 (bin floor): a histogram with fewer than 100 bins, whatever its contents, errors
and entries, makes `analysis` return with the record it was given, for every initial
record. -/
theorem analysis_bin_floor (sqrtf : ℚ → ℚ) (histo : TProfile) (mons : Monitorables)
    (hN : histo.GetNbinsX < 100) : analysis sqrtf histo mons = .ok mons := by
  have h1 := nbins_le histo
  have h2 := length_bin_contents histo
  have h3 : (bin_contents histo).length < 100 := by omega
  simp only [analysis, if_pos h3]

theorem analysis_bin_floor_witness :
    shortRamp.GetNbinsX < 100 ∧ analysis sqrtQ shortRamp markedMons = .ok markedMons :=
  ⟨by decide, analysis_bin_floor sqrtQ shortRamp markedMons (by decide)⟩

/-- C2 as stated fails: the 100-bin histogram whose bins are all populated and all hold
2e9 is flat (populated contents pairwise equal, so max - min = 0 < 50), yet `min` stays at
its initial value 1e9, the range gate and the separation gate are passed, and `analysis`
writes `peak_` and `height_`. -/
theorem flat_waveform_modifies_record :
    100 ≤ flatHigh.GetNbinsX ∧
    (∀ a ∈ flatHigh.bins, ∀ b ∈ flatHigh.bins,
      a.entries ≠ 0 → b.entries ≠ 0 → a.content = b.content) ∧
    scanMax flatHigh = 2000000000 ∧ scanMin flatHigh = 1000000000 ∧
    analysis sqrtQ flatHigh zeroMons =
      .ok { zeroMons with base_ := 0, peak_ := 2000000000, height_ := 2000000000 } ∧
    analysis sqrtQ flatHigh zeroMons ≠ .ok zeroMons := by
  decide!

/-- C2 (range floor, amended): if the contents of the populated bins pairwise differ by
less than 50 and all lie strictly between -1e9 - 50 and 1e9 + 50, then the `range` computed
from the sentinels is below 50 and `analysis` returns with the record it was given.  This
covers every flat histogram whose level lies in that band and every histogram without a
populated bin; it holds for every number of bins, in particular for 100 or more. -/
theorem analysis_range_floor (sqrtf : ℚ → ℚ) (histo : TProfile) (mons : Monitorables)
    (hpair : ∀ a ∈ histo.bins, ∀ b ∈ histo.bins,
      a.entries ≠ 0 → b.entries ≠ 0 → a.content - b.content < 50)
    (hhi : ∀ a ∈ histo.bins, a.entries ≠ 0 → a.content < 1000000050)
    (hlo : ∀ a ∈ histo.bins, a.entries ≠ 0 → -1000000050 < a.content) :
    range histo < 50 ∧ analysis sqrtf histo mons = .ok mons := by
  have hr : range histo < 50 := by
    unfold range scanMax scanMin
    rcases foldl_maxStep_cases (ingested histo) (-1000000000) with hmax | ⟨a, ha, hane, hmax⟩ <;>
      rcases foldl_minStep_cases (ingested histo) 1000000000 with hmin | ⟨b, hb, hbne, hmin⟩ <;>
      rw [hmax, hmin]
    · norm_num
    · have := hlo b (ingested_subset histo hb) hbne
      linarith
    · have := hhi a (ingested_subset histo ha) hane
      linarith
    · exact hpair a (ingested_subset histo ha) b (ingested_subset histo hb) hane hbne
  refine ⟨hr, ?_⟩
  by_cases hb : (bin_contents histo).length < 100
  · simp only [analysis, if_pos hb]
  · simp only [analysis, if_neg hb, if_pos hr]

theorem analysis_range_floor_witness :
    range flatLow < 50 ∧ analysis sqrtQ flatLow markedMons = .ok markedMons :=
  analysis_range_floor sqrtQ flatLow markedMons (by decide!) (by decide!) (by decide!)

/-- C3 (plateau-separation gate): when the bin floor and the range floor are passed and
`tickmark - baseline < 50`, `analysis` returns with the record it was given. -/
theorem analysis_separation_gate (sqrtf : ℚ → ℚ) (histo : TProfile) (mons : Monitorables)
    (hbins : ¬ (bin_contents histo).length < 100) (hrange : ¬ range histo < 50)
    (hsep : tickmark histo - baseline histo < 50) :
    analysis sqrtf histo mons = .ok mons := by
  simp only [analysis, if_neg hbins, if_neg hrange, if_pos hsep]

theorem analysis_separation_gate_witness :
    (¬ (bin_contents closePlateaus).length < 100 ∧ ¬ range closePlateaus < 50 ∧
      tickmark closePlateaus = 60 ∧ baseline closePlateaus = 45) ∧
    analysis sqrtQ closePlateaus markedMons = .ok markedMons :=
  ⟨by decide!, analysis_separation_gate sqrtQ closePlateaus markedMons (by decide!)
    (by decide!) (by decide!)⟩

/-! ## Edge scan and validation lemmas -/

/-- What the body of the edge scan records at `ibin`. -/
theorem edgeAt_eq_some_iff (contents : List ℚ) (entries : List ℕ) (rms : ℚ) (ibin : ℕ)
    (p : ℕ × ℚ) :
    edgeAt contents entries rms ibin = some p ↔
      p.1 = ibin ∧ entries.getD (ibin + 1) 0 ≠ 0 ∧ entries.getD (ibin - 1) 0 ≠ 0 ∧
        p.2 = contents.getD (ibin + 1) 0 - contents.getD (ibin - 1) 0 ∧ p.2 > 5 * rms := by
  obtain ⟨k, d⟩ := p
  unfold edgeAt
  by_cases h1 : entries.getD (ibin + 1) 0 ≠ 0 ∧ entries.getD (ibin - 1) 0 ≠ 0
  · rw [if_pos h1]
    by_cases h2 : contents.getD (ibin + 1) 0 - contents.getD (ibin - 1) 0 > 5 * rms
    · simp only [h2, if_true, Option.some.injEq, Prod.mk.injEq]
      constructor
      · rintro ⟨rfl, rfl⟩
        exact ⟨rfl, h1.1, h1.2, rfl, h2⟩
      · rintro ⟨rfl, -, -, rfl, -⟩
        exact ⟨rfl, rfl⟩
    · simp only [h2, if_false]
      constructor
      · intro h; cases h
      · rintro ⟨-, -, -, hd, hgt⟩
        exact absurd (hd ▸ hgt) h2
  · rw [if_neg h1]
    constructor
    · intro h; cases h
    · rintro ⟨-, ha, hb, -, -⟩
      exact absurd ⟨ha, hb⟩ h1

/-- Membership in the map built by the edge scan. -/
theorem mem_findEdges_iff (n : ℕ) (contents : List ℚ) (entries : List ℕ) (rms : ℚ)
    (p : ℕ × ℚ) :
    p ∈ findEdges n contents entries rms ↔
      (1 ≤ p.1 ∧ p.1 + 1 < n) ∧ entries.getD (p.1 + 1) 0 ≠ 0 ∧
        entries.getD (p.1 - 1) 0 ≠ 0 ∧
        p.2 = contents.getD (p.1 + 1) 0 - contents.getD (p.1 - 1) 0 ∧ p.2 > 5 * rms := by
  unfold findEdges
  rw [List.mem_filterMap]
  constructor
  · rintro ⟨i, hi, he⟩
    rw [edgeAt_eq_some_iff] at he
    obtain ⟨hk, h1, h2, h3, h4⟩ := he
    rw [List.mem_range'_1] at hi
    subst hk
    exact ⟨⟨hi.1, by omega⟩, h1, h2, h3, h4⟩
  · rintro ⟨⟨h0, hn⟩, h1, h2, h3, h4⟩
    refine ⟨p.1, ?_, ?_⟩
    · rw [List.mem_range'_1]
      omega
    · rw [edgeAt_eq_some_iff]
      exact ⟨rfl, h1, h2, h3, h4⟩

/-- The keys recorded over a list of indices form a sublist of those indices. -/
theorem filterMap_edgeAt_keys_sublist (contents : List ℚ) (entries : List ℕ) (rms : ℚ)
    (l : List ℕ) :
    ((l.filterMap (edgeAt contents entries rms)).map Prod.fst).Sublist l := by
  induction l with
  | nil => simp
  | cons i l ih =>
    cases h : edgeAt contents entries rms i with
    | none =>
      rw [List.filterMap_cons_none h]
      exact ih.cons i
    | some p =>
      rw [List.filterMap_cons_some h, List.map_cons]
      rw [edgeAt_eq_some_iff] at h
      rw [h.1]
      exact ih.cons₂ i

/-- The map built by the edge scan has strictly increasing keys. -/
theorem findEdges_keys_increasing (n : ℕ) (contents : List ℚ) (entries : List ℕ) (rms : ℚ) :
    ((findEdges n contents entries rms).map Prod.fst).Pairwise (· < ·) :=
  List.Pairwise.sublist (filterMap_edgeAt_keys_sublist contents entries rms _)
    (List.pairwise_lt_range' 1 (n - 1 - 1))

/-- When the validation loop completes, no element has been erased. -/
theorem checkEdges_ok (contents : List ℚ) (entries : List ℕ) (floor : ℚ) :
    ∀ (edges kept : List (ℕ × ℚ)),
      checkEdges contents entries floor edges = .ok kept → kept = edges
  | [], kept, h => by
    simp only [checkEdges, Except.ok.injEq] at h
    exact h.symm
  | edge :: rest, kept, h => by
    unfold checkEdges at h
    split at h
    · cases h
    · split at h
      · cases h
      · split at h
        · cases h
        · rename_i kept' hk
          simp only [Except.ok.injEq] at h
          rw [← h, checkEdges_ok contents entries floor rest kept' hk]

/-- The first key of a list with strictly increasing keys is the smallest. -/
theorem first_key_le {first : ℕ × ℚ} {rest : List (ℕ × ℚ)}
    (h : ((first :: rest).map Prod.fst).Pairwise (· < ·)) :
    ∀ k ∈ (first :: rest).map Prod.fst, first.1 ≤ k := by
  intro k hk
  rw [List.map_cons, List.pairwise_cons] at h
  rw [List.map_cons, List.mem_cons] at hk
  rcases hk with rfl | hk
  · exact le_refl _
  · exact le_of_lt (h.1 k hk)

/-- Past the three gates, `analysis` returns the record assembled from the validated
edges. -/
theorem analysis_of_validated (sqrtf : ℚ → ℚ) (histo : TProfile) (mons : Monitorables)
    (edges : List (ℕ × ℚ)) (hgates : passesGates histo)
    (hedges : validatedEdges sqrtf histo = .ok edges) :
    analysis sqrtf histo mons =
      .ok (setMonitorables edges (baseline histo) (tickmark histo) mons) := by
  simp only [analysis, if_neg hgates.1, if_neg hgates.2.1, if_neg hgates.2.2, hedges]

/-- Validated edges have strictly increasing keys, each an interior bin index. -/
theorem validatedEdges_keys (sqrtf : ℚ → ℚ) (histo : TProfile) (edges : List (ℕ × ℚ))
    (hedges : validatedEdges sqrtf histo = .ok edges) :
    (edges.map Prod.fst).Pairwise (· < ·) ∧ ∀ p ∈ edges, 1 ≤ p.1 ∧ p.1 + 1 < nbins histo := by
  have h := checkEdges_ok _ _ _ _ _ hedges
  subst h
  refine ⟨findEdges_keys_increasing _ _ _ _, ?_⟩
  intro p hp
  exact ((mem_findEdges_iff _ _ _ _ p).1 hp).1

/-! ## Result assembly -/

/-- C4 (result assembly on success): when the three gates are passed and the validation
loop leaves a non-empty map `edges`, `analysis` returns the record with `delay_` the
smallest key `e` of `edges`, `pllCoarse_ = e / 24`, `pllFine_ = e % 24`, `error_ = 0`,
`base_ = baseline`, `peak_ = tickmark`, `height_ = tickmark - baseline`. -/
theorem analysis_first_edge (sqrtf : ℚ → ℚ) (histo : TProfile) (mons : Monitorables)
    (edges : List (ℕ × ℚ)) (hgates : passesGates histo)
    (hedges : validatedEdges sqrtf histo = .ok edges) (hne : edges ≠ []) :
    ∃ e, e ∈ edges.map Prod.fst ∧ (∀ k ∈ edges.map Prod.fst, e ≤ k) ∧
      analysis sqrtf histo mons =
        .ok { pllCoarse_ := e / 24
              pllFine_ := e % 24
              delay_ := e
              error_ := 0
              base_ := baseline histo
              peak_ := tickmark histo
              height_ := tickmark histo - baseline histo } := by
  have hkeys := (validatedEdges_keys sqrtf histo edges hedges).1
  rw [analysis_of_validated sqrtf histo mons edges hgates hedges]
  cases edges with
  | nil => exact absurd rfl hne
  | cons first rest =>
    exact ⟨first.1, by simp, first_key_le hkeys, rfl⟩

theorem analysis_first_edge_witness :
    (passesGates twoEdges ∧ validatedEdges sqrtQ twoEdges = .ok [(50, 100), (80, 100)] ∧
      analysis sqrtQ twoEdges markedMons =
        .ok { pllCoarse_ := 2, pllFine_ := 2, delay_ := 50, error_ := 0, base_ := 0,
              peak_ := 100, height_ := 100 }) ∧
    ∃ e, e ∈ [(50, (100 : ℚ)), (80, 100)].map Prod.fst ∧
      (∀ k ∈ [(50, (100 : ℚ)), (80, 100)].map Prod.fst, e ≤ k) ∧
      analysis sqrtQ twoEdges markedMons =
        .ok { pllCoarse_ := e / 24
              pllFine_ := e % 24
              delay_ := e
              error_ := 0
              base_ := baseline twoEdges
              peak_ := tickmark twoEdges
              height_ := tickmark twoEdges - baseline twoEdges } :=
  ⟨by decide!, analysis_first_edge sqrtQ twoEdges markedMons [(50, 100), (80, 100)]
    (by decide!) (by decide!) (by decide)⟩

/-- C5 (no-edge partial result): when the three gates are passed and the validation loop
leaves an empty map, `analysis` returns the incoming record with `base_ = baseline`,
`peak_ = tickmark`, `height_ = tickmark - baseline` and with `pllCoarse_`, `pllFine_`,
`delay_`, `error_` as they were. -/
theorem analysis_no_edge (sqrtf : ℚ → ℚ) (histo : TProfile) (mons : Monitorables)
    (hgates : passesGates histo) (hedges : validatedEdges sqrtf histo = .ok []) :
    analysis sqrtf histo mons =
      .ok { pllCoarse_ := mons.pllCoarse_
            pllFine_ := mons.pllFine_
            delay_ := mons.delay_
            error_ := mons.error_
            base_ := baseline histo
            peak_ := tickmark histo
            height_ := tickmark histo - baseline histo } := by
  rw [analysis_of_validated sqrtf histo mons [] hgates hedges]
  rfl

theorem analysis_no_edge_witness :
    (passesGates stepDown ∧ validatedEdges sqrtQ stepDown = .ok []) ∧
    analysis sqrtQ stepDown markedMons =
      .ok { pllCoarse_ := markedMons.pllCoarse_
            pllFine_ := markedMons.pllFine_
            delay_ := markedMons.delay_
            error_ := markedMons.error_
            base_ := baseline stepDown
            peak_ := tickmark stepDown
            height_ := tickmark stepDown - baseline stepDown } :=
  ⟨by decide!, analysis_no_edge sqrtQ stepDown markedMons (by decide!) (by decide!)⟩

/-- C6 (PLL decomposition): when `analysis` writes the timing fields (gates passed,
non-empty validated map), the returned record has `pllFine_ < 24`,
`delay_ = 24 * pllCoarse_ + pllFine_` and `1 ≤ delay_ ≤ N - 2` with `N` the number of
bins; if `delay_ = 125` then `pllCoarse_ = 5` and `pllFine_ = 5`. -/
theorem analysis_pll_decomposition (sqrtf : ℚ → ℚ) (histo : TProfile) (mons : Monitorables)
    (edges : List (ℕ × ℚ)) (hgates : passesGates histo)
    (hedges : validatedEdges sqrtf histo = .ok edges) (hne : edges ≠ []) :
    ∃ mons', analysis sqrtf histo mons = .ok mons' ∧
      mons'.pllFine_ < 24 ∧ mons'.delay_ = 24 * mons'.pllCoarse_ + mons'.pllFine_ ∧
      1 ≤ mons'.delay_ ∧ mons'.delay_ ≤ histo.GetNbinsX - 2 ∧
      (mons'.delay_ = 125 → mons'.pllCoarse_ = 5 ∧ mons'.pllFine_ = 5) := by
  have hkeys := (validatedEdges_keys sqrtf histo edges hedges).2
  have hle := nbins_le histo
  rw [analysis_of_validated sqrtf histo mons edges hgates hedges]
  cases edges with
  | nil => exact absurd rfl hne
  | cons first rest =>
    have hfirst := hkeys first (List.mem_cons_self _ _)
    refine ⟨_, rfl, ?_⟩
    simp only [setMonitorables]
    refine ⟨Nat.mod_lt _ (by norm_num), (Nat.div_add_mod _ _).symm, hfirst.1, by omega, ?_⟩
    intro h
    rw [h]
    exact ⟨rfl, rfl⟩

theorem analysis_pll_decomposition_witness :
    (passesGates edgeAt125 ∧ validatedEdges sqrtQ edgeAt125 = .ok [(125, 100)] ∧
      analysis sqrtQ edgeAt125 markedMons =
        .ok { pllCoarse_ := 5, pllFine_ := 5, delay_ := 125, error_ := 0, base_ := 0,
              peak_ := 100, height_ := 100 }) ∧
    ∃ mons', analysis sqrtQ edgeAt125 markedMons = .ok mons' ∧
      mons'.pllFine_ < 24 ∧ mons'.delay_ = 24 * mons'.pllCoarse_ + mons'.pllFine_ ∧
      1 ≤ mons'.delay_ ∧ mons'.delay_ ≤ edgeAt125.GetNbinsX - 2 ∧
      (mons'.delay_ = 125 → mons'.pllCoarse_ = 5 ∧ mons'.pllFine_ = 5) :=
  ⟨by decide!, analysis_pll_decomposition sqrtQ edgeAt125 markedMons [(125, 100)]
    (by decide!) (by decide!) (by decide)⟩

/-! ## Median levels -/

/-- The sorted vector is the only ascending arrangement of the samples. -/
theorem sortAscending_eq_of_perm_sorted (v s : List ℚ) (hperm : s.Perm v)
    (hsorted : s.Sorted (· ≤ ·)) : sortAscending v = s :=
  List.eq_of_perm_of_sorted ((List.perm_insertionSort (· ≤ ·) v).trans hperm.symm)
    (List.sorted_insertionSort (· ≤ ·) v) hsorted

/-- The level of a non-empty vector is the element at `size/2` of its sorted form. -/
theorem medianLevel_of_ne_nil (v : List ℚ) (hv : v ≠ []) :
    (sortAscending v)[v.length / 2]? = some (medianLevel v) := by
  have hlen : (sortAscending v).length = v.length := List.length_insertionSort _ v
  have hpos : 0 < v.length := List.length_pos.2 hv
  have hne : (sortAscending v).isEmpty = false := by
    cases h : sortAscending v with
    | nil => rw [h] at hlen; simp at hlen; omega
    | cons _ _ => rfl
  have hidx : v.length / 2 < (sortAscending v).length := by
    rw [hlen]; exact Nat.div_lt_self hpos (by norm_num)
  simp only [medianLevel, hne, ite_self, hlen, Bool.false_eq_true, if_false]
  rw [List.getD_eq_getElem?_getD, List.getElem?_eq_getElem hidx]
  rfl

/-- C7 (median rule): for a vector `v` of classified samples and its ascending
arrangement `s` (any sorted permutation of `v`): if `v` is non-empty the level is the
element of `s` at index `size/2` (the upper-middle element for even sizes), and if `v` is
empty the level is 0.  For `[10,20,30,40]` the level is 30, not the average 25.  Both
`baseline` and `tickmark` of a histogram are levels in this sense. -/
theorem medianLevel_rule (v s : List ℚ) (hperm : s.Perm v) (hsorted : s.Sorted (· ≤ ·)) :
    (v ≠ [] → s[v.length / 2]? = some (medianLevel v)) ∧
    (v = [] → medianLevel v = 0) ∧
    (medianLevel [10, 20, 30, 40] = 30 ∧ medianLevel [10, 20, 30, 40] ≠ (20 + 30) / 2) ∧
    (∀ histo : TProfile, baseline histo = medianLevel (baseSamples histo) ∧
      tickmark histo = medianLevel (tickSamples histo)) := by
  refine ⟨?_, ?_, by decide!, fun _ => ⟨rfl, rfl⟩⟩
  · intro hv
    rw [← sortAscending_eq_of_perm_sorted v s hperm hsorted]
    exact medianLevel_of_ne_nil v hv
  · rintro rfl
    rfl

theorem medianLevel_rule_witness :
    ([10, 20, 30, 40] : List ℚ)[([40, 10, 30, 20] : List ℚ).length / 2]? =
      some (medianLevel [40, 10, 30, 20]) ∧ medianLevel [40, 10, 30, 20] = 30 :=
  ⟨(medianLevel_rule [40, 10, 30, 20] [10, 20, 30, 40] (by decide) (by decide!)).1 (by decide),
    by decide!⟩

/-! ## Classification -/

/-- The classification loop computes two filters of the bins it visits. -/
theorem classify_eq_filter (thr : ℚ) (bs : List Bin) :
    classify thr bs =
      ((bs.filter (fun b => decide (b.entries ≠ 0 ∧ thr ≤ b.content))).map Bin.content,
        (bs.filter (fun b => decide (b.entries ≠ 0 ∧ b.content < thr))).map Bin.content) := by
  induction bs with
  | nil => rfl
  | cons b bs ih =>
    simp only [classify, ih]
    by_cases hb : b.entries ≠ 0
    · by_cases hlt : b.content < thr
      · have hle : ¬ thr ≤ b.content := not_le.2 hlt
        simp [hb, hlt, hle, List.filter_cons]
      · have hle : thr ≤ b.content := not_lt.1 hlt
        simp [hb, hlt, hle, List.filter_cons]
    · simp [hb, List.filter_cons]

/-- Every populated bin visited by the classification loop is pushed exactly once. -/
theorem classify_length (thr : ℚ) (bs : List Bin) :
    (classify thr bs).2.length + (classify thr bs).1.length =
      (bs.filter (fun b => decide (b.entries ≠ 0))).length := by
  induction bs with
  | nil => rfl
  | cons b bs ih =>
    by_cases hb : b.entries ≠ 0
    · have hf : (b :: bs).filter (fun b => decide (b.entries ≠ 0)) =
          b :: bs.filter (fun b => decide (b.entries ≠ 0)) :=
        List.filter_cons_of_pos (decide_eq_true hb)
      rw [hf, List.length_cons, ← ih]
      by_cases hlt : b.content < thr
      · simp only [classify, if_pos hb, if_pos hlt, List.length_cons]
        omega
      · simp only [classify, if_pos hb, if_neg hlt, List.length_cons]
        omega
    · have hf : (b :: bs).filter (fun b => decide (b.entries ≠ 0)) =
          bs.filter (fun b => decide (b.entries ≠ 0)) :=
        List.filter_cons_of_neg (by simpa using hb)
      rw [hf, ← ih]
      simp only [classify, if_neg hb]

/-- Below `2^16` bins the ingestion loop reads every bin. -/
theorem ingested_eq_bins (histo : TProfile) (hN : histo.GetNbinsX < 65536) :
    ingested histo = histo.bins := by
  unfold ingested nbins
  rw [Nat.mod_eq_of_lt hN]
  exact List.take_length _

/-- The histogram `pastUint16` has 65636 bins. -/
theorem GetNbinsX_pastUint16 : pastUint16.GetNbinsX = 65636 := by
  have hlen : risingStep.bins.length = 100 := by decide
  unfold TProfile.GetNbinsX pastUint16
  rw [List.length_append, List.length_append, List.length_replicate, hlen]
  rfl

/-- When the bin count modulo `2^16` is the length of a prefix of the bins, the ingestion
loop reads exactly that prefix. -/
theorem ingested_of_append (histo : TProfile) (l r : List Bin) (hb : histo.bins = l ++ r)
    (hl : (l.length + r.length) % 65536 = l.length) : ingested histo = l := by
  unfold ingested nbins TProfile.GetNbinsX
  rw [hb, List.length_append, hl]
  exact List.take_left _ _

/-- The ingestion loop reads only the first 100 bins of `pastUint16`. -/
theorem ingested_pastUint16 : ingested pastUint16 = risingStep.bins :=
  have hlen : risingStep.bins.length = 100 := by decide
  ingested_of_append pastUint16 risingStep.bins
    ([filled 7, filled 7, filled 107] ++ List.replicate 65533 hole) rfl
    (by rw [List.length_append, List.length_replicate, hlen]; rfl)

/-! Every stage of the analysis depends on the histogram only through the ingested bins. -/

theorem nbins_congr {h1 h2 : TProfile} (h : ingested h1 = ingested h2) :
    nbins h1 = nbins h2 := by
  rw [← length_ingested h1, ← length_ingested h2, h]

theorem bin_contents_congr {h1 h2 : TProfile} (h : ingested h1 = ingested h2) :
    bin_contents h1 = bin_contents h2 := by
  simp only [bin_contents, h]

theorem bin_entries_congr {h1 h2 : TProfile} (h : ingested h1 = ingested h2) :
    bin_entries h1 = bin_entries h2 := by
  simp only [bin_entries, h]

theorem range_congr {h1 h2 : TProfile} (h : ingested h1 = ingested h2) :
    range h1 = range h2 := by
  simp only [range, scanMax, scanMin, h]

theorem threshold_congr {h1 h2 : TProfile} (h : ingested h1 = ingested h2) :
    threshold h1 = threshold h2 := by
  simp only [threshold, range, scanMax, scanMin, h]

theorem baseSamples_congr {h1 h2 : TProfile} (h : ingested h1 = ingested h2) :
    baseSamples h1 = baseSamples h2 := by
  simp only [baseSamples, threshold_congr h, h]

theorem tickSamples_congr {h1 h2 : TProfile} (h : ingested h1 = ingested h2) :
    tickSamples h1 = tickSamples h2 := by
  simp only [tickSamples, threshold_congr h, h]

theorem baseline_congr {h1 h2 : TProfile} (h : ingested h1 = ingested h2) :
    baseline h1 = baseline h2 := by
  simp only [baseline, baseSamples_congr h]

theorem tickmark_congr {h1 h2 : TProfile} (h : ingested h1 = ingested h2) :
    tickmark h1 = tickmark h2 := by
  simp only [tickmark, tickSamples_congr h]

theorem baseline_rms_congr (sqrtf : ℚ → ℚ) {h1 h2 : TProfile}
    (h : ingested h1 = ingested h2) : baseline_rms sqrtf h1 = baseline_rms sqrtf h2 := by
  simp only [baseline_rms, baseSamples_congr h]

theorem candidateEdges_congr (sqrtf : ℚ → ℚ) {h1 h2 : TProfile}
    (h : ingested h1 = ingested h2) : candidateEdges sqrtf h1 = candidateEdges sqrtf h2 := by
  simp only [candidateEdges, nbins_congr h, bin_contents_congr h, bin_entries_congr h,
    baseline_rms_congr sqrtf h]

theorem validatedEdges_congr (sqrtf : ℚ → ℚ) {h1 h2 : TProfile}
    (h : ingested h1 = ingested h2) : validatedEdges sqrtf h1 = validatedEdges sqrtf h2 := by
  simp only [validatedEdges, candidateEdges_congr sqrtf h, bin_contents_congr h,
    bin_entries_congr h, baseline_congr h, baseline_rms_congr sqrtf h]

theorem passesGates_congr {h1 h2 : TProfile} (h : ingested h1 = ingested h2) :
    passesGates h1 ↔ passesGates h2 := by
  simp only [passesGates, bin_contents_congr h, range_congr h, tickmark_congr h,
    baseline_congr h]

theorem analysis_congr (sqrtf : ℚ → ℚ) {h1 h2 : TProfile} (h : ingested h1 = ingested h2)
    (mons : Monitorables) : analysis sqrtf h1 mons = analysis sqrtf h2 mons := by
  simp only [analysis, bin_contents_congr h, range_congr h, tickmark_congr h,
    baseline_congr h, validatedEdges_congr sqrtf h]

/-- The analysis of `pastUint16` sees the bins of `risingStep`. -/
theorem ingested_pastUint16_eq : ingested pastUint16 = ingested risingStep :=
  ingested_pastUint16.trans (ingested_eq_bins risingStep (by decide)).symm

/-- C8 as stated fails: `pastUint16` has 65636 bins and reaches the classification, but
`nbins` is 65636 mod 2^16 = 100, so the populated bin holding 7 (below the threshold 50)
is pushed to neither vector, and the two vectors hold 100 samples while 103 bins are
populated. -/
theorem classification_skips_bins_past_uint16 :
    (pastUint16.GetNbinsX = 65636 ∧ ¬ (bin_contents pastUint16).length < 100 ∧
      ¬ range pastUint16 < 50) ∧
    (∃ b ∈ pastUint16.bins, b.entries ≠ 0 ∧ b.content < threshold pastUint16 ∧
      b.content ∉ baseSamples pastUint16 ∧ b.content ∉ tickSamples pastUint16) ∧
    (baseSamples pastUint16).length + (tickSamples pastUint16).length = 100 ∧
    (pastUint16.bins.filter (fun b => decide (b.entries ≠ 0))).length = 103 := by
  have h := ingested_pastUint16_eq
  refine ⟨⟨GetNbinsX_pastUint16, ?_, ?_⟩, ⟨filled 7, ?_, ?_, ?_, ?_, ?_⟩, ?_, ?_⟩
  · rw [bin_contents_congr h]; decide!
  · rw [range_congr h]; decide!
  · exact List.mem_append_right _ (List.mem_append_left _ (List.mem_cons_self _ _))
  · decide
  · rw [threshold_congr h]; decide!
  · rw [baseSamples_congr h]; decide!
  · rw [tickSamples_congr h]; decide!
  · rw [baseSamples_congr h, tickSamples_congr h]; decide!
  · have h1 : (risingStep.bins.filter (fun b => decide (b.entries ≠ 0))).length = 100 := by
      decide!
    have h2 : ([filled 7, filled 7, filled 107].filter
        (fun b => decide (b.entries ≠ 0))).length = 3 := by decide
    have h3 : (List.replicate 65533 hole).filter (fun b => decide (b.entries ≠ 0)) = [] :=
      List.filter_replicate_of_neg (by decide)
    simp only [pastUint16, List.filter_append, List.length_append, h1, h2, h3,
      List.length_nil]

/-- C8 (classification completeness, amended): with
`threshold = min + (max - min)/2`, the vector `base` holds, in bin order, exactly the
contents of the populated ingested bins below the threshold, and `tick` exactly the
contents of the populated ingested bins at or above it; so the two sizes add up to the
number of populated ingested bins.  The ingested bins are the first `N mod 2^16` bins of
the histogram, which are all its bins when `N < 2^16`. -/
theorem classification_complete (histo : TProfile) :
    threshold histo = scanMin histo + (scanMax histo - scanMin histo) / 2 ∧
    baseSamples histo =
      ((ingested histo).filter
        (fun b => decide (b.entries ≠ 0 ∧ b.content < threshold histo))).map Bin.content ∧
    tickSamples histo =
      ((ingested histo).filter
        (fun b => decide (b.entries ≠ 0 ∧ threshold histo ≤ b.content))).map Bin.content ∧
    (baseSamples histo).length + (tickSamples histo).length =
      ((ingested histo).filter (fun b => decide (b.entries ≠ 0))).length ∧
    ingested histo = histo.bins.take (histo.GetNbinsX % 65536) ∧
    (histo.GetNbinsX < 65536 → ingested histo = histo.bins) := by
  refine ⟨rfl, ?_, ?_, classify_length _ _, rfl, ingested_eq_bins histo⟩
  · simp only [baseSamples, classify_eq_filter]
  · simp only [tickSamples, classify_eq_filter]

theorem classification_complete_witness :
    closePlateaus.GetNbinsX < 65536 ∧ ingested closePlateaus = closePlateaus.bins ∧
    baseSamples closePlateaus = 0 :: List.replicate 49 45 ∧
    tickSamples closePlateaus = List.replicate 49 60 ++ [100] :=
  ⟨by decide, (classification_complete closePlateaus).2.2.2.2.2 (by decide), by decide!,
    by decide!⟩

/-! ## Edge scan -/

/-- Reading `bin_entries` at the position of an ingested bin. -/
theorem getD_bin_entries (histo : TProfile) (i : ℕ) (b : Bin)
    (h : (ingested histo)[i]? = some b) : (bin_entries histo).getD i 0 = b.entries := by
  simp [bin_entries, List.getD_eq_getElem?_getD, List.getElem?_map, h]

/-- Reading `bin_contents` at the position of an ingested bin. -/
theorem getD_bin_contents (histo : TProfile) (i : ℕ) (b : Bin)
    (h : (ingested histo)[i]? = some b) : (bin_contents histo).getD i 0 = b.content := by
  simp [bin_contents, List.getD_eq_getElem?_getD, List.getElem?_map, h]

/-- The three bins of `pastUint16` that follow the first 100. -/
theorem getElem?_pastUint16 (k : ℕ) (hk : k < 3) :
    pastUint16.bins[100 + k]? = [filled 7, filled 7, filled 107][k]? := by
  have hlen : risingStep.bins.length = 100 := by decide
  unfold pastUint16
  rw [List.getElem?_append_right (by rw [hlen]; omega), hlen,
    List.getElem?_append_left (by simpa using hk)]
  congr 1
  omega

/-- C9 as stated fails: `pastUint16` has 65636 bins and reaches the edge scan; index 101
lies in `[1, N-2]`, its neighbours 100 and 102 are populated and their difference 100
exceeds `5 * rms = 0`, yet 101 is not a key of the edge map, because the scan stops at
`nbins - 2 = 98` with `nbins = 65636 mod 2^16 = 100`. -/
theorem edge_scan_skips_bins_past_uint16 :
    (pastUint16.GetNbinsX = 65636 ∧ passesGates pastUint16) ∧
    (1 ≤ 101 ∧ 101 ≤ 65636 - 2) ∧
    (pastUint16.bins[100]? = some (filled 7) ∧ pastUint16.bins[102]? = some (filled 107) ∧
      (filled 7).entries ≠ 0 ∧ (filled 107).entries ≠ 0 ∧
      (filled 107).content - (filled 7).content > 5 * baseline_rms sqrtQ pastUint16) ∧
    candidateEdges sqrtQ pastUint16 = [(49, 100), (50, 100)] ∧
    101 ∉ (candidateEdges sqrtQ pastUint16).map Prod.fst := by
  have h := ingested_pastUint16_eq
  refine ⟨⟨GetNbinsX_pastUint16, ?_⟩, by decide, ⟨?_, ?_, by decide, by decide, ?_⟩, ?_, ?_⟩
  · rw [passesGates_congr h]; decide!
  · exact getElem?_pastUint16 0 (by decide)
  · exact getElem?_pastUint16 2 (by decide)
  · rw [baseline_rms_congr sqrtQ h]; decide!
  · rw [candidateEdges_congr sqrtQ h]; decide!
  · rw [candidateEdges_congr sqrtQ h]; decide!

/-- C9 (edge detection, amended): with `n = N mod 2^16` the number of ingested bins, the
edge map has the entry `(i, d)` exactly when `1 ≤ i ≤ n - 2`, the ingested bins `i-1` and
`i+1` are both populated, `d` is the content of bin `i+1` minus the content of bin `i-1`,
and `d > 5 * rms`; bin `i` itself is not consulted.  The keys are strictly increasing, so
each index occurs at most once.  When `N < 2^16`, `n = N` and the ingested bins are all
the bins of the histogram. -/
theorem candidateEdges_iff (sqrtf : ℚ → ℚ) (histo : TProfile) (i : ℕ) (d : ℚ) :
    ((i, d) ∈ candidateEdges sqrtf histo ↔
      (1 ≤ i ∧ i ≤ nbins histo - 2) ∧
        ∃ lo hi : Bin, (ingested histo)[i - 1]? = some lo ∧ (ingested histo)[i + 1]? = some hi ∧
          lo.entries ≠ 0 ∧ hi.entries ≠ 0 ∧ d = hi.content - lo.content ∧
          d > 5 * baseline_rms sqrtf histo) ∧
    ((candidateEdges sqrtf histo).map Prod.fst).Pairwise (· < ·) ∧
    (histo.GetNbinsX < 65536 → nbins histo = histo.GetNbinsX ∧ ingested histo = histo.bins) := by
  refine ⟨?_, findEdges_keys_increasing _ _ _ _,
    fun hN => ⟨Nat.mod_eq_of_lt hN, ingested_eq_bins histo hN⟩⟩
  have hlen := length_ingested histo
  unfold candidateEdges
  rw [mem_findEdges_iff]
  constructor
  · rintro ⟨⟨h1, h2⟩, hhi, hlo, hd, hgt⟩
    have hi1 : i - 1 < (ingested histo).length := by omega
    have hi2 : i + 1 < (ingested histo).length := by omega
    have hlo' := getD_bin_entries histo (i - 1) _ (List.getElem?_eq_getElem hi1)
    have hhi' := getD_bin_entries histo (i + 1) _ (List.getElem?_eq_getElem hi2)
    have hclo := getD_bin_contents histo (i - 1) _ (List.getElem?_eq_getElem hi1)
    have hchi := getD_bin_contents histo (i + 1) _ (List.getElem?_eq_getElem hi2)
    simp only at hhi hlo hd hgt h1 h2
    refine ⟨⟨h1, by omega⟩, (ingested histo)[i - 1], (ingested histo)[i + 1],
      List.getElem?_eq_getElem hi1, List.getElem?_eq_getElem hi2, ?_, ?_, ?_, hgt⟩
    · rw [← hlo']; exact hlo
    · rw [← hhi']; exact hhi
    · rw [hd, hchi, hclo]
  · rintro ⟨⟨h1, h2⟩, lo, hi, hlo, hhi, hlone, hhine, hd, hgt⟩
    have hi2 : i + 1 < (ingested histo).length := by
      by_contra hcon
      rw [List.getElem?_eq_none (by omega)] at hhi
      cases hhi
    refine ⟨⟨h1, by omega⟩, ?_, ?_, ?_, hgt⟩
    · rw [getD_bin_entries histo _ _ hhi]; exact hhine
    · rw [getD_bin_entries histo _ _ hlo]; exact hlone
    · rw [getD_bin_contents histo _ _ hhi, getD_bin_contents histo _ _ hlo]; exact hd

theorem candidateEdges_iff_witness :
    (twoEdges.GetNbinsX < 65536 ∧ twoEdges.bins[50]? = some hole) ∧
    ((50, 100) ∈ candidateEdges sqrtQ twoEdges ∧ nbins twoEdges = twoEdges.GetNbinsX ∧
      ingested twoEdges = twoEdges.bins) :=
  ⟨by decide!,
    ((candidateEdges_iff sqrtQ twoEdges 50 100).1.2
      ⟨by decide!, filled 0, filled 100, by decide!, by decide!, by decide, by decide,
        by decide!, by decide!⟩),
    (candidateEdges_iff sqrtQ twoEdges 50 100).2.2 (by decide!)⟩

/-! ## Edge validation -/

/-- A read inside the vector returns the element. -/
theorem vecAt_of_lt {α : Type} (v : List α) (i : ℕ) (d : α) (h : i < v.length) :
    vecAt v i = .ok (v.getD i d) := by
  unfold vecAt
  rw [List.getD_eq_getElem?_getD, List.getElem?_eq_getElem h]
  rfl

/-- A read past the end of the vector is a fault. -/
theorem vecAt_of_le {α : Type} (v : List α) (i : ℕ) (h : v.length ≤ i) :
    vecAt v i = .error (.outOfRange i v.length) := by
  unfold vecAt
  rw [List.getElem?_eq_none h]

/-- One step of the window loop whose index lies inside both vectors. -/
theorem windowStep_in_range (contents : List ℚ) (entries : List ℕ) (floor : ℚ) (e : ℕ)
    (valid : Bool) (ii : ℕ) (hn : e + ii < entries.length) (hc : e + ii < contents.length) :
    windowStep contents entries floor e valid ii =
      .ok (valid && !decide (entries.getD (e + ii) 0 ≠ 0 ∧ contents.getD (e + ii) 0 < floor)) := by
  unfold windowStep
  rw [vecAt_of_lt entries _ 0 hn, vecAt_of_lt contents _ 0 hc]
  by_cases h1 : entries.getD (e + ii) 0 ≠ 0
  · by_cases h2 : contents.getD (e + ii) 0 < floor
    · rw [decide_eq_true (⟨h1, h2⟩ : _ ∧ _)]
      simp only [if_pos h1, if_pos h2, Bool.not_true, Bool.and_false]
    · rw [decide_eq_false (fun h : _ ∧ _ => h2 h.2)]
      simp only [if_pos h1, if_neg h2, Bool.not_false, Bool.and_true]
  · rw [decide_eq_false (fun h : _ ∧ _ => h1 h.1)]
    simp only [if_neg h1, Bool.not_false, Bool.and_true]

/-- The window loop over offsets that all lie inside both vectors. -/
theorem windowLoop_in_range (contents : List ℚ) (entries : List ℕ) (floor : ℚ) (e : ℕ) :
    ∀ (iis : List ℕ) (valid : Bool),
      (∀ ii ∈ iis, e + ii < entries.length ∧ e + ii < contents.length) →
      windowLoop contents entries floor e valid iis =
        .ok (valid && iis.all (fun ii =>
          !decide (entries.getD (e + ii) 0 ≠ 0 ∧ contents.getD (e + ii) 0 < floor)))
  | [], valid, _ => by simp [windowLoop]
  | ii :: iis, valid, h => by
    have hii := h ii (List.mem_cons_self _ _)
    have hrest : ∀ jj ∈ iis, e + jj < entries.length ∧ e + jj < contents.length :=
      fun jj hjj => h jj (List.mem_cons_of_mem _ hjj)
    unfold windowLoop
    rw [windowStep_in_range contents entries floor e valid ii hii.1 hii.2]
    simp only
    rw [windowLoop_in_range contents entries floor e iis _ hrest, List.all_cons, Bool.and_assoc]

/-- The window loop faults as soon as one of its offsets lies past the end of
`bin_entries`. -/
theorem windowLoop_out_of_range (contents : List ℚ) (entries : List ℕ) (floor : ℚ) (e : ℕ) :
    ∀ (iis : List ℕ) (valid : Bool), (∃ ii ∈ iis, entries.length ≤ e + ii) →
      ∃ f, windowLoop contents entries floor e valid iis = .error f
  | [], _, h => by
    obtain ⟨ii, hii, -⟩ := h
    cases hii
  | ii :: iis, valid, h => by
    unfold windowLoop
    cases hstep : windowStep contents entries floor e valid ii with
    | error f => exact ⟨f, rfl⟩
    | ok valid' =>
      simp only
      apply windowLoop_out_of_range contents entries floor e iis valid'
      obtain ⟨jj, hjj, hle⟩ := h
      rcases List.mem_cons.1 hjj with rfl | hmem
      · exfalso
        unfold windowStep at hstep
        rw [vecAt_of_le entries _ hle] at hstep
        cases hstep
      · exact ⟨jj, hmem, hle⟩

/-- The window of an edge that lies inside the vectors: `valid` records whether no
populated bin at offsets 10 .. 39 is below the floor. -/
theorem windowValid_in_range (contents : List ℚ) (entries : List ℕ) (floor : ℚ) (e : ℕ)
    (hn : e + 39 < entries.length) (hc : e + 39 < contents.length) :
    windowValid contents entries floor e =
      .ok ((List.range' 10 30).all (fun ii =>
        !decide (entries.getD (e + ii) 0 ≠ 0 ∧ contents.getD (e + ii) 0 < floor))) := by
  unfold windowValid
  rw [windowLoop_in_range contents entries floor e _ true, Bool.true_and]
  intro ii hii
  rw [List.mem_range'_1] at hii
  omega

/-- The window of an edge that reaches past the end of the vectors: a fault. -/
theorem windowValid_out_of_range (contents : List ℚ) (entries : List ℕ) (floor : ℚ) (e : ℕ)
    (hn : entries.length ≤ e + 39) :
    ∃ f, windowValid contents entries floor e = .error f := by
  unfold windowValid
  apply windowLoop_out_of_range
  exact ⟨39, by rw [List.mem_range'_1]; omega, hn⟩

/-- The validation loop completes exactly when every edge has a valid window; it then
leaves the map as it was. -/
theorem checkEdges_eq_ok_iff (contents : List ℚ) (entries : List ℕ) (floor : ℚ) :
    ∀ (edges kept : List (ℕ × ℚ)),
      checkEdges contents entries floor edges = .ok kept ↔
        kept = edges ∧ ∀ p ∈ edges, windowValid contents entries floor p.1 = .ok true
  | [], kept => by
    simp only [checkEdges, Except.ok.injEq, List.not_mem_nil, false_implies, implies_true,
      and_true]
    exact eq_comm
  | edge :: rest, kept => by
    have ih := checkEdges_eq_ok_iff contents entries floor rest
    unfold checkEdges
    cases hw : windowValid contents entries floor edge.1 with
    | error f =>
      constructor
      · intro h; cases h
      · rintro ⟨-, hall⟩
        have := hall edge (List.mem_cons_self _ _)
        rw [hw] at this
        cases this
    | ok valid =>
      cases valid with
      | false =>
        simp only [Bool.not_false, if_true]
        constructor
        · intro h; cases h
        · rintro ⟨-, hall⟩
          have := hall edge (List.mem_cons_self _ _)
          rw [hw] at this
          cases this
      | true =>
        simp only [Bool.not_true, Bool.false_eq_true, if_false]
        cases hr : checkEdges contents entries floor rest with
        | error f =>
          constructor
          · intro h; cases h
          · rintro ⟨-, hall⟩
            have h2 := (ih rest).2 ⟨rfl, fun p hp => hall p (List.mem_cons_of_mem _ hp)⟩
            rw [hr] at h2
            cases h2
        | ok kept' =>
          have h1 := (ih kept').1 hr
          simp only [Except.ok.injEq]
          constructor
          · intro h
            refine ⟨by rw [← h, h1.1], ?_⟩
            intro p hp
            rcases List.mem_cons.1 hp with rfl | hp
            · exact hw
            · exact h1.2 p hp
          · rintro ⟨h, -⟩
            rw [h, h1.1]

/-- C10 (edge validation), the code at a failing input: for `twoTicks` the gates are
passed, `baseline = 1`, `rms = 1` and the edge map is
`[(19, 101), (20, 99), (99, 101), (100, 99)]`.  All four windows lie inside the vectors.
The windows of the edges at 99 and 100 hold no populated bin below
`baseline + 5*rms = 6`, so these edges are to survive.  The window of the edge at 19
(bins 29 .. 58) does, so that edge is erased through the loop iterator and the loop header
then increments the erased iterator: the traversal of the remaining edges, and with it the
result of `analysis`, is undefined. -/
theorem validation_advances_erased_iterator :
    (passesGates twoTicks ∧ baseline twoTicks = 1 ∧ baseline_rms sqrtQ twoTicks = 1 ∧
      candidateEdges sqrtQ twoTicks = [(19, 101), (20, 99), (99, 101), (100, 99)]) ∧
    (windowValid (bin_contents twoTicks) (bin_entries twoTicks) 6 19 = .ok false ∧
      windowValid (bin_contents twoTicks) (bin_entries twoTicks) 6 99 = .ok true ∧
      windowValid (bin_contents twoTicks) (bin_entries twoTicks) 6 100 = .ok true) ∧
    validatedEdges sqrtQ twoTicks = .error (.erasedIterator 19) ∧
    analysis sqrtQ twoTicks zeroMons = .error (.erasedIterator 19) := by
  decide!

/-- C17 (in-bounds reads during edge validation), the code at a failing input: `lateStep`
has 100 bins and passes the gates; the edge scan records the edges 89 and 90.  The window
loop of the edge at 89 reads index `89 + 10 = 99` and then index `89 + 11 = 100` of vectors
that hold 100 elements: a read past the end, so `e + ii < N` fails for a recorded edge. -/
theorem validation_reads_past_end :
    (100 ≤ lateStep.GetNbinsX ∧ passesGates lateStep ∧
      (bin_entries lateStep).length = 100 ∧ (bin_contents lateStep).length = 100) ∧
    candidateEdges sqrtQ lateStep = [(89, 100), (90, 100)] ∧
    ¬ (89 + 11 < lateStep.GetNbinsX) ∧
    vecAt (bin_entries lateStep) (89 + 11) = .error (.outOfRange 100 100) ∧
    windowValid (bin_contents lateStep) (bin_entries lateStep)
      (baseline lateStep + 5 * baseline_rms sqrtQ lateStep) 89 = .error (.outOfRange 100 100) ∧
    analysis sqrtQ lateStep zeroMons = .error (.outOfRange 100 100) := by
  decide!

/-! ## Noise estimate -/

/-- The running sum of line 97 is the sum of the samples. -/
theorem foldl_add_eq_sum (v : List ℚ) (init : ℚ) :
    v.foldl (fun mean x => mean + x) init = init + v.sum := by
  induction v generalizing init with
  | nil => simp
  | cons x v ih => rw [List.foldl_cons, ih, List.sum_cons, add_assoc]

/-- The running sum of line 98 is the sum of the squared samples. -/
theorem foldl_add_sq_eq_sum (v : List ℚ) (init : ℚ) :
    v.foldl (fun mean2 x => mean2 + x * x) init = init + (v.map (fun x => x * x)).sum := by
  induction v generalizing init with
  | nil => simp
  | cons x v ih => rw [List.foldl_cons, ih, List.map_cons, List.sum_cons, add_assoc]

/-- The noise estimate in terms of the two means of the vector it is computed on. -/
theorem rmsOf_eq (sqrtf : ℚ → ℚ) (v : List ℚ) :
    rmsOf sqrtf v =
      if sampleMeanSq v > sampleMean v * sampleMean v then
        sqrtf (sampleMeanSq v - sampleMean v * sampleMean v)
      else 0 := by
  cases v with
  | nil => simp [rmsOf, sampleMean, sampleMeanSq]
  | cons x v =>
    simp only [rmsOf, sampleMean, sampleMeanSq, foldl_add_eq_sum, foldl_add_sq_eq_sum, zero_add,
      List.isEmpty_cons, Bool.false_eq_true, not_false_eq_true, if_true, if_false]
    simp

/-- Sorting does not change the two means. -/
theorem sampleMean_sortAscending (v : List ℚ) :
    sampleMean (sortAscending v) = sampleMean v ∧
      sampleMeanSq (sortAscending v) = sampleMeanSq v := by
  have hperm : (sortAscending v).Perm v := List.perm_insertionSort _ v
  have hlen : (sortAscending v).length = v.length := hperm.length_eq
  have hnil : sortAscending v = [] ↔ v = [] := by
    rw [← List.length_eq_zero, hlen, List.length_eq_zero]
  have hsum : (sortAscending v).sum = v.sum := hperm.sum_eq
  have hsum2 : ((sortAscending v).map (fun x => x * x)).sum = (v.map (fun x => x * x)).sum :=
    (hperm.map _).sum_eq
  unfold sampleMean sampleMeanSq
  simp only [hnil, hsum, hsum2, hlen, and_self]

/-- The noise estimate of the empty baseline vector. -/
theorem rmsOf_nil (sqrtf : ℚ → ℚ) : rmsOf sqrtf (sortAscending []) = 0 := by
  simp [rmsOf, sortAscending]

/-- C11 (rms clamp): for a baseline sample list `base`, with `mean = E[x]` and
`mean2 = E[x^2]` over it, and a square root with `sqrt 0 = 0` that is non-negative on
positive arguments: the noise estimate is `sqrt (max 0 (mean2 - mean^2))`; it is
`sqrt (mean2 - mean^2)` when `mean2 > mean^2` and 0 otherwise; it is non-negative; it
depends on the square root only through its values at positive arguments (the square
root is never applied to a negative argument); and it is 0 for the empty list.  The
`baseline_rms` of a histogram is this estimate for its baseline samples. -/
theorem baseline_rms_clamp (sqrtf : ℚ → ℚ) (base : List ℚ)
    (hzero : sqrtf 0 = 0) (hnonneg : ∀ x, 0 < x → 0 ≤ sqrtf x) :
    rmsOf sqrtf (sortAscending base) =
      sqrtf (max 0 (sampleMeanSq base - sampleMean base * sampleMean base)) ∧
    (sampleMeanSq base > sampleMean base * sampleMean base →
      rmsOf sqrtf (sortAscending base) =
        sqrtf (sampleMeanSq base - sampleMean base * sampleMean base)) ∧
    (¬ sampleMeanSq base > sampleMean base * sampleMean base →
      rmsOf sqrtf (sortAscending base) = 0) ∧
    0 ≤ rmsOf sqrtf (sortAscending base) ∧
    (∀ g : ℚ → ℚ, (∀ x, 0 < x → g x = sqrtf x) →
      rmsOf g (sortAscending base) = rmsOf sqrtf (sortAscending base)) ∧
    rmsOf sqrtf (sortAscending []) = 0 ∧
    (∀ histo : TProfile,
      baseline_rms sqrtf histo = rmsOf sqrtf (sortAscending (baseSamples histo))) := by
  have hm := sampleMean_sortAscending base
  have hrms : ∀ g : ℚ → ℚ, rmsOf g (sortAscending base) =
      if sampleMeanSq base > sampleMean base * sampleMean base then
        g (sampleMeanSq base - sampleMean base * sampleMean base)
      else 0 := by
    intro g
    rw [rmsOf_eq, hm.1, hm.2]
  by_cases hgt : sampleMeanSq base > sampleMean base * sampleMean base
  · have hpos : 0 < sampleMeanSq base - sampleMean base * sampleMean base := sub_pos.2 hgt
    refine ⟨?_, ?_, ?_, ?_, ?_, rmsOf_nil sqrtf, fun _ => rfl⟩
    · rw [hrms, if_pos hgt, max_eq_right hpos.le]
    · intro _
      rw [hrms, if_pos hgt]
    · intro h
      exact absurd hgt h
    · rw [hrms, if_pos hgt]
      exact hnonneg _ hpos
    · intro g hg
      rw [hrms, hrms, if_pos hgt, if_pos hgt, hg _ hpos]
  · have hle : sampleMeanSq base - sampleMean base * sampleMean base ≤ 0 :=
      sub_nonpos.2 (not_lt.1 hgt)
    refine ⟨?_, ?_, ?_, ?_, ?_, rmsOf_nil sqrtf, fun _ => rfl⟩
    · rw [hrms, if_neg hgt, max_eq_left hle, hzero]
    · intro h
      exact absurd h hgt
    · intro _
      rw [hrms, if_neg hgt]
    · rw [hrms, if_neg hgt]
    · intro g _
      rw [hrms, hrms, if_neg hgt, if_neg hgt]

theorem baseline_rms_clamp_witness :
    (sampleMean [-1, 1] = 0 ∧ sampleMeanSq [-1, 1] = 1 ∧
      rmsOf sqrtQ (sortAscending [-1, 1]) = 1) ∧
    rmsOf sqrtQ (sortAscending [-1, 1]) =
      sqrtQ (max 0 (sampleMeanSq [-1, 1] - sampleMean [-1, 1] * sampleMean [-1, 1])) :=
  ⟨by decide!,
    (baseline_rms_clamp sqrtQ [-1, 1] (by decide!)
      (fun x _ => div_nonneg (Nat.cast_nonneg _) (Nat.cast_nonneg _))).1⟩

/-! ## The vector overload -/

/-- After `resize(2,0)` and the two assignments the vector holds exactly the two values. -/
theorem resize_two_set (v : List ℕ) (a b : ℕ) :
    ((resize v 2 0).set 0 a).set 1 b = [a, b] := by
  match v with
  | [] => rfl
  | [_] => rfl
  | _ :: _ :: rest => simp [resize]

/-- A record returned by the analysis has 16-bit `pllCoarse_` and `pllFine_` when the
incoming record has. -/
theorem analysis_pll_lt (sqrtf : ℚ → ℚ) (histo : TProfile) (mons mons' : Monitorables)
    (hmons : mons.pllCoarse_ < 65536 ∧ mons.pllFine_ < 65536)
    (h : analysis sqrtf histo mons = .ok mons') :
    mons'.pllCoarse_ < 65536 ∧ mons'.pllFine_ < 65536 := by
  by_cases hgates : passesGates histo
  · cases hv : validatedEdges sqrtf histo with
    | error f =>
      simp only [analysis, if_neg hgates.1, if_neg hgates.2.1, if_neg hgates.2.2, hv] at h
      cases h
    | ok edges =>
      rw [analysis_of_validated sqrtf histo mons edges hgates hv] at h
      have hkeys := (validatedEdges_keys sqrtf histo edges hv).2
      have hn : nbins histo < 65536 := Nat.mod_lt _ (by norm_num)
      cases edges with
      | nil =>
        simp only [setMonitorables, Except.ok.injEq] at h
        rw [← h]
        exact hmons
      | cons first rest =>
        have hfirst := hkeys first (List.mem_cons_self _ _)
        simp only [setMonitorables, Except.ok.injEq] at h
        rw [← h]
        have h1 : first.1 / 24 ≤ first.1 := Nat.div_le_self _ _
        have h2 : first.1 % 24 < 24 := Nat.mod_lt _ (by norm_num)
        constructor
        · show first.1 / 24 < 65536
          omega
        · show first.1 % 24 < 65536
          omega
  · have hret : analysis sqrtf histo mons = .ok mons := by
      unfold passesGates at hgates
      unfold analysis
      by_cases h1 : (bin_contents histo).length < 100
      · rw [if_pos h1]
      · by_cases h2 : range histo < 50
        · rw [if_neg h1, if_pos h2]
        · by_cases h3 : tickmark histo - baseline histo < 50
          · rw [if_neg h1, if_neg h2, if_pos h3]
          · exact absurd ⟨h1, h2, h3⟩ hgates
    rw [hret] at h
    cases h
    exact hmons

/-- C15 (legacy adapter): with `dflt` the default-constructed record (its two PLL fields
16-bit values), for every prior content `prior` of the output vector: for an empty
collection the output is `[dflt.pllCoarse_, dflt.pllFine_]`; for a collection starting
with `histo` it is `[pllCoarse_, pllFine_]` of the record the core analysis returns for
`histo` started from `dflt`; and neither the histograms after the first nor the prior
content influence the result. -/
theorem legacyAnalysis_projects (sqrtf : ℚ → ℚ) (dflt : Monitorables)
    (hdflt : dflt.pllCoarse_ < 65536 ∧ dflt.pllFine_ < 65536) (prior : List ℕ) :
    legacyAnalysis sqrtf dflt [] prior = .ok [dflt.pllCoarse_, dflt.pllFine_] ∧
    (∀ (histo : TProfile) (rest : List TProfile),
      legacyAnalysis sqrtf dflt (histo :: rest) prior =
        match analysis sqrtf histo dflt with
        | .error f => .error f
        | .ok mons => .ok [mons.pllCoarse_, mons.pllFine_]) ∧
    (∀ (histo : TProfile) (rest rest' : List TProfile) (prior' : List ℕ),
      legacyAnalysis sqrtf dflt (histo :: rest) prior =
        legacyAnalysis sqrtf dflt (histo :: rest') prior') := by
  have hcons : ∀ (histo : TProfile) (rest : List TProfile) (p : List ℕ),
      legacyAnalysis sqrtf dflt (histo :: rest) p =
        match analysis sqrtf histo dflt with
        | .error f => .error f
        | .ok mons => .ok [mons.pllCoarse_, mons.pllFine_] := by
    intro histo rest p
    simp only [legacyAnalysis, resize_two_set]
    cases h : analysis sqrtf histo dflt with
    | error f => rfl
    | ok mons =>
      have hlt := analysis_pll_lt sqrtf histo dflt mons hdflt h
      simp only [Nat.mod_eq_of_lt hlt.1, Nat.mod_eq_of_lt hlt.2]
  refine ⟨?_, fun histo rest => hcons histo rest prior, ?_⟩
  · unfold legacyAnalysis
    simp only [resize_two_set, Nat.mod_eq_of_lt hdflt.1, Nat.mod_eq_of_lt hdflt.2]
  · intro histo rest rest' prior'
    rw [hcons, hcons]

theorem legacyAnalysis_projects_witness :
    (markedMons.pllCoarse_ < 65536 ∧ markedMons.pllFine_ < 65536) ∧
    legacyAnalysis sqrtQ markedMons [] [1, 2, 3] = .ok [7, 8] ∧
    legacyAnalysis sqrtQ markedMons [edgeAt125, stepDown] [1, 2, 3] = .ok [5, 5] ∧
    legacyAnalysis sqrtQ markedMons [stepDown, edgeAt125] [] = .ok [7, 8] :=
  ⟨by decide, (legacyAnalysis_projects sqrtQ markedMons (by decide) [1, 2, 3]).1,
    by decide!, by decide!⟩

/-! ## What the analysis writes -/

/-- When one of the three gates is not passed, the record is returned as given. -/
theorem analysis_of_not_gates (sqrtf : ℚ → ℚ) (histo : TProfile) (mons : Monitorables)
    (hgates : ¬ passesGates histo) : analysis sqrtf histo mons = .ok mons := by
  unfold passesGates at hgates
  unfold analysis
  by_cases h1 : (bin_contents histo).length < 100
  · rw [if_pos h1]
  · by_cases h2 : range histo < 50
    · rw [if_neg h1, if_pos h2]
    · by_cases h3 : tickmark histo - baseline histo < 50
      · rw [if_neg h1, if_neg h2, if_pos h3]
      · exact absurd ⟨h1, h2, h3⟩ hgates

/-- Both branches of the result assembly write the three level fields. -/
theorem setMonitorables_levels (edges : List (ℕ × ℚ)) (b t : ℚ) (mons : Monitorables) :
    (setMonitorables edges b t mons).base_ = b ∧ (setMonitorables edges b t mons).peak_ = t ∧
      (setMonitorables edges b t mons).height_ = t - b := by
  cases edges with
  | nil => exact ⟨rfl, rfl, rfl⟩
  | cons first rest => exact ⟨rfl, rfl, rfl⟩

/-- The analysis of `halfStepPast` sees the 50 bins of `halfStep`. -/
theorem ingested_halfStepPast_eq : ingested halfStepPast = ingested halfStep :=
  have hlen : halfStep.bins.length = 50 := by decide
  (ingested_of_append halfStepPast halfStep.bins (List.replicate 65536 hole) rfl
    (by rw [List.length_replicate, hlen])).trans
    (ingested_eq_bins halfStep (by decide)).symm

/-- The histogram `halfStepPast` has 65586 bins. -/
theorem GetNbinsX_halfStepPast : halfStepPast.GetNbinsX = 65586 := by
  have hlen : halfStep.bins.length = 50 := by decide
  unfold TProfile.GetNbinsX halfStepPast
  rw [List.length_append, List.length_replicate, hlen]

/-- C12 as stated fails: `halfStepPast` has 65586 >= 100 bins, populated contents 0 and
100 (max - min = 100 >= 50) and `tickmark - baseline = 100 >= 50`, yet `nbins` is
65586 mod 2^16 = 50, the bin floor returns, and the record is not written. -/
theorem bin_floor_counts_modulo_uint16 :
    (halfStepPast.GetNbinsX = 65586 ∧ 100 ≤ 65586) ∧
    (filled 100 ∈ halfStepPast.bins ∧ filled 0 ∈ halfStepPast.bins ∧
      (filled 100).entries ≠ 0 ∧ (filled 0).entries ≠ 0 ∧
      (filled 100).content - (filled 0).content ≥ 50) ∧
    (¬ range halfStepPast < 50 ∧ tickmark halfStepPast - baseline halfStepPast ≥ 50) ∧
    (bin_contents halfStepPast).length = 50 ∧
    analysis sqrtQ halfStepPast markedMons = .ok markedMons ∧
    markedMons.base_ ≠ baseline halfStepPast := by
  have h := ingested_halfStepPast_eq
  refine ⟨⟨GetNbinsX_halfStepPast, by decide⟩, ⟨?_, ?_, by decide, by decide, by decide!⟩,
    ⟨?_, ?_⟩, ?_, ?_, ?_⟩
  · exact List.mem_append_left _ (by decide!)
  · exact List.mem_append_left _ (by decide!)
  · rw [range_congr h]; decide!
  · rw [tickmark_congr h, baseline_congr h]; decide!
  · rw [bin_contents_congr h]; decide!
  · rw [analysis_congr sqrtQ h]; decide!
  · rw [baseline_congr h]; decide!

/-- C12 (gates are the only way to fail, amended): when the three gates are passed (at
least 100 ingested bins, `range >= 50`, `tickmark - baseline >= 50`) and the validation
loop completes, `analysis` returns a record with `base_ = baseline`, `peak_ = tickmark`,
`height_ = peak_ - base_`, whether or not the edge map is empty; and whenever `analysis`
returns a record different from the one it was given, the gates were passed, the three
level fields are these, and `height_ >= 50`, so `height_ >= 0`. -/
theorem analysis_writes_levels (sqrtf : ℚ → ℚ) (histo : TProfile) (mons : Monitorables) :
    (passesGates histo → ∀ edges, validatedEdges sqrtf histo = .ok edges →
      ∃ mons', analysis sqrtf histo mons = .ok mons' ∧ mons'.base_ = baseline histo ∧
        mons'.peak_ = tickmark histo ∧ mons'.height_ = mons'.peak_ - mons'.base_) ∧
    (∀ mons', analysis sqrtf histo mons = .ok mons' → mons' ≠ mons →
      passesGates histo ∧ mons'.base_ = baseline histo ∧ mons'.peak_ = tickmark histo ∧
        mons'.height_ = mons'.peak_ - mons'.base_ ∧ 50 ≤ mons'.height_ ∧ 0 ≤ mons'.height_) := by
  constructor
  · intro hgates edges hedges
    have hl := setMonitorables_levels edges (baseline histo) (tickmark histo) mons
    refine ⟨_, analysis_of_validated sqrtf histo mons edges hgates hedges, hl.1, hl.2.1, ?_⟩
    rw [hl.2.2, hl.2.1, hl.1]
  · intro mons' hres hne
    by_cases hgates : passesGates histo
    · cases hv : validatedEdges sqrtf histo with
      | error f =>
        simp only [analysis, if_neg hgates.1, if_neg hgates.2.1, if_neg hgates.2.2, hv] at hres
        cases hres
      | ok edges =>
        rw [analysis_of_validated sqrtf histo mons edges hgates hv] at hres
        have hl := setMonitorables_levels edges (baseline histo) (tickmark histo) mons
        cases hres
        have h50 : 50 ≤ tickmark histo - baseline histo := not_lt.1 hgates.2.2
        refine ⟨hgates, hl.1, hl.2.1, ?_, ?_, ?_⟩
        · rw [hl.2.2, hl.2.1, hl.1]
        · rw [hl.2.2]; exact h50
        · rw [hl.2.2]; linarith
    · rw [analysis_of_not_gates sqrtf histo mons hgates] at hres
      cases hres
      exact absurd rfl hne

theorem analysis_writes_levels_witness :
    (passesGates stepDown ∧ validatedEdges sqrtQ stepDown = .ok []) ∧
    ∃ mons', analysis sqrtQ stepDown markedMons = .ok mons' ∧ mons'.base_ = baseline stepDown ∧
      mons'.peak_ = tickmark stepDown ∧ mons'.height_ = mons'.peak_ - mons'.base_ :=
  ⟨by decide!, (analysis_writes_levels sqrtQ stepDown markedMons).1 (by decide!) []
    (by decide!)⟩

/-! ## Extremes and levels -/

/-- The ingestion loop leaves `max` at or above its initial value and at or above the
content of every populated bin it has read. -/
theorem foldl_maxStep_ge (bs : List Bin) (init : ℚ) :
    init ≤ bs.foldl maxStep init ∧
      ∀ b ∈ bs, b.entries ≠ 0 → b.content ≤ bs.foldl maxStep init := by
  induction bs generalizing init with
  | nil => exact ⟨le_refl _, fun b hb => absurd hb (List.not_mem_nil b)⟩
  | cons a bs ih =>
    rw [List.foldl_cons]
    have hstep : init ≤ maxStep init a ∧ (a.entries ≠ 0 → a.content ≤ maxStep init a) := by
      unfold maxStep
      by_cases ha : a.entries ≠ 0
      · by_cases hgt : a.content > init
        · simp only [if_pos ha, if_pos hgt]
          exact ⟨le_of_lt hgt, fun _ => le_refl _⟩
        · simp only [if_pos ha, if_neg hgt]
          exact ⟨le_refl _, fun _ => not_lt.1 hgt⟩
      · simp only [if_neg ha]
        exact ⟨le_refl _, fun h => absurd h ha⟩
    have h := ih (maxStep init a)
    refine ⟨le_trans hstep.1 h.1, ?_⟩
    intro b hb hne
    rcases List.mem_cons.1 hb with rfl | hb
    · exact le_trans (hstep.2 hne) h.1
    · exact h.2 b hb hne

/-- The ingestion loop leaves `min` at or below its initial value and at or below the
content of every populated bin it has read. -/
theorem foldl_minStep_le (bs : List Bin) (init : ℚ) :
    bs.foldl minStep init ≤ init ∧
      ∀ b ∈ bs, b.entries ≠ 0 → bs.foldl minStep init ≤ b.content := by
  induction bs generalizing init with
  | nil => exact ⟨le_refl _, fun b hb => absurd hb (List.not_mem_nil b)⟩
  | cons a bs ih =>
    rw [List.foldl_cons]
    have hstep : minStep init a ≤ init ∧ (a.entries ≠ 0 → minStep init a ≤ a.content) := by
      unfold minStep
      by_cases ha : a.entries ≠ 0
      · by_cases hlt : a.content < init
        · simp only [if_pos ha, if_pos hlt]
          exact ⟨le_of_lt hlt, fun _ => le_refl _⟩
        · simp only [if_pos ha, if_neg hlt]
          exact ⟨le_refl _, fun _ => not_lt.1 hlt⟩
      · simp only [if_neg ha]
        exact ⟨le_refl _, fun h => absurd h ha⟩
    have h := ih (minStep init a)
    refine ⟨le_trans h.1 hstep.1, ?_⟩
    intro b hb hne
    rcases List.mem_cons.1 hb with rfl | hb
    · exact le_trans h.1 (hstep.2 hne)
    · exact h.2 b hb hne

/-- When a populated ingested bin lies at or above `-1e9`, `max` is the content of a
populated ingested bin. -/
theorem scanMax_attained (histo : TProfile)
    (hhi : ∃ b ∈ ingested histo, b.entries ≠ 0 ∧ -1000000000 ≤ b.content) :
    ∃ b ∈ ingested histo, b.entries ≠ 0 ∧ b.content = scanMax histo := by
  unfold scanMax
  rcases foldl_maxStep_cases (ingested histo) (-1000000000) with h | ⟨b, hb, hne, h⟩
  · obtain ⟨b, hb, hne, hge⟩ := hhi
    have hle := (foldl_maxStep_ge (ingested histo) (-1000000000)).2 b hb hne
    exact ⟨b, hb, hne, le_antisymm hle (by rw [h]; exact hge)⟩
  · exact ⟨b, hb, hne, h.symm⟩

/-- When a populated ingested bin lies at or below `1e9`, `min` is the content of a
populated ingested bin. -/
theorem scanMin_attained (histo : TProfile)
    (hlo : ∃ b ∈ ingested histo, b.entries ≠ 0 ∧ b.content ≤ 1000000000) :
    ∃ b ∈ ingested histo, b.entries ≠ 0 ∧ b.content = scanMin histo := by
  unfold scanMin
  rcases foldl_minStep_cases (ingested histo) 1000000000 with h | ⟨b, hb, hne, h⟩
  · obtain ⟨b, hb, hne, hle⟩ := hlo
    have hge := (foldl_minStep_le (ingested histo) 1000000000).2 b hb hne
    exact ⟨b, hb, hne, le_antisymm (by rw [h]; exact hle) hge⟩
  · exact ⟨b, hb, hne, h.symm⟩

/-- The level of a non-empty vector is one of its elements. -/
theorem medianLevel_mem (v : List ℚ) (hv : v ≠ []) : medianLevel v ∈ v :=
  (List.perm_insertionSort (· ≤ ·) v).mem_iff.1 (List.getElem?_mem (medianLevel_of_ne_nil v hv))

/-- Membership in the vector `base`. -/
theorem mem_baseSamples_iff (histo : TProfile) (x : ℚ) :
    x ∈ baseSamples histo ↔
      ∃ b ∈ ingested histo, b.entries ≠ 0 ∧ b.content < threshold histo ∧ b.content = x := by
  simp only [baseSamples, classify_eq_filter, List.mem_map, List.mem_filter, decide_eq_true_eq]
  constructor
  · rintro ⟨b, ⟨hb, hne, hlt⟩, rfl⟩
    exact ⟨b, hb, hne, hlt, rfl⟩
  · rintro ⟨b, hb, hne, hlt, rfl⟩
    exact ⟨b, ⟨hb, hne, hlt⟩, rfl⟩

/-- Membership in the vector `tick`. -/
theorem mem_tickSamples_iff (histo : TProfile) (x : ℚ) :
    x ∈ tickSamples histo ↔
      ∃ b ∈ ingested histo, b.entries ≠ 0 ∧ threshold histo ≤ b.content ∧ b.content = x := by
  simp only [tickSamples, classify_eq_filter, List.mem_map, List.mem_filter, decide_eq_true_eq]
  constructor
  · rintro ⟨b, ⟨hb, hne, hle⟩, rfl⟩
    exact ⟨b, hb, hne, hle, rfl⟩
  · rintro ⟨b, hb, hne, hle, rfl⟩
    exact ⟨b, ⟨hb, hne, hle⟩, rfl⟩

/-- C18 as stated fails: `beyondSentinel` has 100 bins, all populated, holding 2e9 and 3e9
(max - min = 1e9 >= 50).  `min` stays at its initial value 1e9, the threshold is 2e9, every
sample is classified as tick, the baseline vector is empty and `baseline` is the default
0. -/
theorem split_degenerate_beyond_sentinel :
    (100 ≤ beyondSentinel.GetNbinsX ∧ filled 3000000000 ∈ beyondSentinel.bins ∧
      filled 2000000000 ∈ beyondSentinel.bins ∧
      (filled 3000000000).content - (filled 2000000000).content ≥ 50) ∧
    (scanMin beyondSentinel = 1000000000 ∧ scanMax beyondSentinel = 3000000000 ∧
      ¬ range beyondSentinel < 50 ∧ threshold beyondSentinel = 2000000000) ∧
    baseSamples beyondSentinel = [] ∧ baseline beyondSentinel = 0 ∧
    ¬ scanMin beyondSentinel ≤ baseline beyondSentinel := by
  decide!

/-- C18 (no degenerate split after the range gate, amended): when some populated
ingested bin lies at or below 1e9 and some at or above -1e9 (so `min` and `max` are the
extremes of the populated ingested contents) and the range gate is passed, `min` is a
baseline sample and `max` is a tick sample, both levels are samples of their vectors (not
the default 0 of an empty vector), and
`min <= baseline < threshold <= tickmark <= max`. -/
theorem levels_between_extremes (histo : TProfile)
    (hlo : ∃ b ∈ ingested histo, b.entries ≠ 0 ∧ b.content ≤ 1000000000)
    (hhi : ∃ b ∈ ingested histo, b.entries ≠ 0 ∧ -1000000000 ≤ b.content)
    (hrange : ¬ range histo < 50) :
    ((∃ b ∈ ingested histo, b.entries ≠ 0 ∧ b.content = scanMin histo) ∧
      (∀ b ∈ ingested histo, b.entries ≠ 0 → scanMin histo ≤ b.content) ∧
      (∃ b ∈ ingested histo, b.entries ≠ 0 ∧ b.content = scanMax histo) ∧
      (∀ b ∈ ingested histo, b.entries ≠ 0 → b.content ≤ scanMax histo)) ∧
    (scanMin histo ∈ baseSamples histo ∧ scanMax histo ∈ tickSamples histo ∧
      baseline histo ∈ baseSamples histo ∧ tickmark histo ∈ tickSamples histo) ∧
    (scanMin histo ≤ baseline histo ∧ baseline histo < threshold histo ∧
      threshold histo ≤ tickmark histo ∧ tickmark histo ≤ scanMax histo) := by
  have hminA := scanMin_attained histo hlo
  have hmaxA := scanMax_attained histo hhi
  have hminB : ∀ b ∈ ingested histo, b.entries ≠ 0 → scanMin histo ≤ b.content :=
    (foldl_minStep_le (ingested histo) 1000000000).2
  have hmaxB : ∀ b ∈ ingested histo, b.entries ≠ 0 → b.content ≤ scanMax histo :=
    (foldl_maxStep_ge (ingested histo) (-1000000000)).2
  have hr : 50 ≤ range histo := not_lt.1 hrange
  have hthr : threshold histo = scanMin histo + range histo / 2 := rfl
  have hrng : range histo = scanMax histo - scanMin histo := rfl
  have hminBase : scanMin histo ∈ baseSamples histo := by
    obtain ⟨b, hb, hne, hc⟩ := hminA
    exact (mem_baseSamples_iff histo _).2 ⟨b, hb, hne, by rw [hc, hthr]; linarith, hc⟩
  have hmaxTick : scanMax histo ∈ tickSamples histo := by
    obtain ⟨b, hb, hne, hc⟩ := hmaxA
    exact (mem_tickSamples_iff histo _).2 ⟨b, hb, hne, by rw [hc, hthr]; linarith, hc⟩
  have hbase : baseline histo ∈ baseSamples histo :=
    medianLevel_mem _ (List.ne_nil_of_mem hminBase)
  have htick : tickmark histo ∈ tickSamples histo :=
    medianLevel_mem _ (List.ne_nil_of_mem hmaxTick)
  obtain ⟨b1, hb1, hne1, hlt1, hc1⟩ := (mem_baseSamples_iff histo _).1 hbase
  obtain ⟨b2, hb2, hne2, hle2, hc2⟩ := (mem_tickSamples_iff histo _).1 htick
  refine ⟨⟨hminA, hminB, hmaxA, hmaxB⟩, ⟨hminBase, hmaxTick, hbase, htick⟩, ?_, ?_, ?_, ?_⟩
  · rw [← hc1]; exact hminB b1 hb1 hne1
  · rw [← hc1]; exact hlt1
  · rw [← hc2]; exact hle2
  · rw [← hc2]; exact hmaxB b2 hb2 hne2

theorem levels_between_extremes_witness :
    (scanMin risingStep = 0 ∧ scanMax risingStep = 100 ∧ baseline risingStep = 0 ∧
      threshold risingStep = 50 ∧ tickmark risingStep = 100) ∧
    (scanMin risingStep ∈ baseSamples risingStep ∧ scanMax risingStep ∈ tickSamples risingStep ∧
      baseline risingStep ∈ baseSamples risingStep ∧
      tickmark risingStep ∈ tickSamples risingStep) :=
  ⟨by decide!,
    (levels_between_extremes risingStep ⟨filled 0, by decide!, by decide, by decide!⟩
      ⟨filled 0, by decide!, by decide, by decide!⟩ (by decide!)).2.1⟩

/-! ## Order of the bins -/

/-- The value of `max` after the loop does not depend on the order of the bins read. -/
theorem foldl_maxStep_perm {l₁ l₂ : List Bin} (hperm : l₁.Perm l₂) (init : ℚ) :
    l₁.foldl maxStep init = l₂.foldl maxStep init := by
  have key : ∀ {a b : List Bin}, a.Perm b → a.foldl maxStep init ≤ b.foldl maxStep init := by
    intro a b hab
    rcases foldl_maxStep_cases a init with h | ⟨x, hx, hne, h⟩
    · rw [h]; exact (foldl_maxStep_ge b init).1
    · rw [h]; exact (foldl_maxStep_ge b init).2 x (hab.mem_iff.1 hx) hne
  exact le_antisymm (key hperm) (key hperm.symm)

/-- The value of `min` after the loop does not depend on the order of the bins read. -/
theorem foldl_minStep_perm {l₁ l₂ : List Bin} (hperm : l₁.Perm l₂) (init : ℚ) :
    l₁.foldl minStep init = l₂.foldl minStep init := by
  have key : ∀ {a b : List Bin}, a.Perm b → a.foldl minStep init ≤ b.foldl minStep init := by
    intro a b hab
    rcases foldl_minStep_cases b init with h | ⟨x, hx, hne, h⟩
    · rw [h]; exact (foldl_minStep_le a init).1
    · rw [h]; exact (foldl_minStep_le a init).2 x (hab.mem_iff.2 hx) hne
  exact le_antisymm (key hperm) (key hperm.symm)

/-- Sorting two arrangements of the same samples gives the same vector. -/
theorem sortAscending_perm {v₁ v₂ : List ℚ} (hperm : v₁.Perm v₂) :
    sortAscending v₁ = sortAscending v₂ :=
  sortAscending_eq_of_perm_sorted v₁ (sortAscending v₂)
    ((List.perm_insertionSort (· ≤ ·) v₂).trans hperm.symm)
    (List.sorted_insertionSort (· ≤ ·) v₂)

/-- The level does not depend on the order of the samples. -/
theorem medianLevel_perm {v₁ v₂ : List ℚ} (hperm : v₁.Perm v₂) :
    medianLevel v₁ = medianLevel v₂ := by
  unfold medianLevel
  rw [sortAscending_perm hperm]

/-- Past the gates, a returned record carries the two levels and their difference. -/
theorem analysis_ok_levels (sqrtf : ℚ → ℚ) (histo : TProfile) (mons mons' : Monitorables)
    (hgates : passesGates histo) (h : analysis sqrtf histo mons = .ok mons') :
    mons'.base_ = baseline histo ∧ mons'.peak_ = tickmark histo ∧
      mons'.height_ = tickmark histo - baseline histo := by
  cases hv : validatedEdges sqrtf histo with
  | error f =>
    simp only [analysis, if_neg hgates.1, if_neg hgates.2.1, if_neg hgates.2.2, hv] at h
    cases h
  | ok edges =>
    rw [analysis_of_validated sqrtf histo mons edges hgates hv] at h
    cases h
    exact setMonitorables_levels edges (baseline histo) (tickmark histo) mons

/-- Rotating three blocks of a list is a permutation. -/
theorem perm_rotate_blocks {α : Type} (a h₁ h₂ : List α) :
    (a ++ (h₁ ++ h₂)).Perm (h₁ ++ (h₂ ++ a)) := by
  rw [← List.append_assoc h₁ h₂ a]
  exact List.perm_append_comm

/-- The analysis of `stepThenHoles` sees the 100 bins of `risingStep`. -/
theorem ingested_stepThenHoles_eq : ingested stepThenHoles = ingested risingStep :=
  have hlen : risingStep.bins.length = 100 := by decide
  (ingested_of_append stepThenHoles risingStep.bins
    (List.replicate 100 hole ++ List.replicate 65436 hole) rfl
    (by rw [List.length_append, List.length_replicate, List.length_replicate, hlen])).trans
    (ingested_eq_bins risingStep (by decide)).symm

/-- The analysis of `holesThenStep` sees 100 unpopulated bins. -/
theorem ingested_holesThenStep_eq : ingested holesThenStep = ingested hundredHoles :=
  have hlen : risingStep.bins.length = 100 := by decide
  (ingested_of_append holesThenStep (List.replicate 100 hole)
    (List.replicate 65436 hole ++ risingStep.bins) rfl
    (by rw [List.length_append, List.length_replicate, List.length_replicate, hlen])).trans
    (ingested_eq_bins hundredHoles (by decide)).symm

/-- C16 as stated fails: `holesThenStep` is a permutation of the 65636 bins of
`stepThenHoles`.  With `nbins = 65636 mod 2^16 = 100` the analysis of `stepThenHoles`
reads the rising step, passes the three gates and writes `base_ = 0`, `peak_ = 100`,
`height_ = 100`, while the analysis of `holesThenStep` reads 100 unpopulated bins and
returns at the range gate. -/
theorem permutation_changes_gate_decision :
    stepThenHoles.bins.Perm holesThenStep.bins ∧
    (passesGates stepThenHoles ∧ ¬ passesGates holesThenStep ∧ range holesThenStep < 50) ∧
    analysis sqrtQ stepThenHoles zeroMons =
      .ok { pllCoarse_ := 2, pllFine_ := 1, delay_ := 49, error_ := 0, base_ := 0,
            peak_ := 100, height_ := 100 } ∧
    analysis sqrtQ holesThenStep zeroMons = .ok zeroMons := by
  have h1 := ingested_stepThenHoles_eq
  have h2 := ingested_holesThenStep_eq
  refine ⟨perm_rotate_blocks _ _ _, ⟨?_, ?_, ?_⟩, ?_, ?_⟩
  · rw [passesGates_congr h1]; decide!
  · rw [passesGates_congr h2]; decide!
  · rw [range_congr h2]; decide!
  · rw [analysis_congr sqrtQ h1]; decide!
  · rw [analysis_congr sqrtQ h2]; decide!

/-- C16 (order-independence of the level estimates, amended): for a histogram with
fewer than `2^16` bins and any permutation of its bins, the analysis makes the same
decision at each of the three gates (same vector size, same `range`, same `tickmark` and
`baseline`), and whenever both analyses return, the two records agree in `base_`, `peak_`
and `height_`. -/
theorem levels_order_independent (sqrtf : ℚ → ℚ) (h1 h2 : TProfile)
    (hperm : h1.bins.Perm h2.bins) (hN : h1.GetNbinsX < 65536) :
    ((bin_contents h1).length = (bin_contents h2).length ∧ range h1 = range h2 ∧
      tickmark h1 = tickmark h2 ∧ baseline h1 = baseline h2) ∧
    (passesGates h1 ↔ passesGates h2) ∧
    (∀ mons m1 m2, analysis sqrtf h1 mons = .ok m1 → analysis sqrtf h2 mons = .ok m2 →
      m1.base_ = m2.base_ ∧ m1.peak_ = m2.peak_ ∧ m1.height_ = m2.height_) := by
  have hN2 : h2.GetNbinsX < 65536 := by
    unfold TProfile.GetNbinsX at hN ⊢
    rw [← hperm.length_eq]; exact hN
  have hi1 := ingested_eq_bins h1 hN
  have hi2 := ingested_eq_bins h2 hN2
  have hlen : (bin_contents h1).length = (bin_contents h2).length := by
    simp only [bin_contents, List.length_map, hi1, hi2, hperm.length_eq]
  have hmax : scanMax h1 = scanMax h2 := by
    unfold scanMax; rw [hi1, hi2]; exact foldl_maxStep_perm hperm _
  have hmin : scanMin h1 = scanMin h2 := by
    unfold scanMin; rw [hi1, hi2]; exact foldl_minStep_perm hperm _
  have hrange : range h1 = range h2 := by unfold range; rw [hmax, hmin]
  have hthr : threshold h1 = threshold h2 := by unfold threshold; rw [hmin, hrange]
  have hbase : (baseSamples h1).Perm (baseSamples h2) := by
    simp only [baseSamples, classify_eq_filter, hi1, hi2, hthr]
    exact (hperm.filter _).map _
  have htick : (tickSamples h1).Perm (tickSamples h2) := by
    simp only [tickSamples, classify_eq_filter, hi1, hi2, hthr]
    exact (hperm.filter _).map _
  have hb : baseline h1 = baseline h2 := medianLevel_perm hbase
  have ht : tickmark h1 = tickmark h2 := medianLevel_perm htick
  have hg : passesGates h1 ↔ passesGates h2 := by
    simp only [passesGates, hlen, hrange, hb, ht]
  refine ⟨⟨hlen, hrange, ht, hb⟩, hg, ?_⟩
  intro mons m1 m2 hr1 hr2
  by_cases hg1 : passesGates h1
  · have l1 := analysis_ok_levels sqrtf h1 mons m1 hg1 hr1
    have l2 := analysis_ok_levels sqrtf h2 mons m2 (hg.1 hg1) hr2
    rw [l1.1, l1.2.1, l1.2.2, l2.1, l2.2.1, l2.2.2, hb, ht]
    exact ⟨rfl, rfl, rfl⟩
  · rw [analysis_of_not_gates sqrtf h1 mons hg1] at hr1
    rw [analysis_of_not_gates sqrtf h2 mons (fun h => hg1 (hg.2 h))] at hr2
    cases hr1
    cases hr2
    exact ⟨rfl, rfl, rfl⟩

theorem levels_order_independent_witness :
    (risingStep.bins.Perm stepDown.bins ∧ risingStep.GetNbinsX < 65536 ∧
      analysis sqrtQ risingStep zeroMons =
        .ok { pllCoarse_ := 2, pllFine_ := 1, delay_ := 49, error_ := 0, base_ := 0,
              peak_ := 100, height_ := 100 } ∧
      analysis sqrtQ stepDown zeroMons =
        .ok { zeroMons with base_ := 0, peak_ := 100, height_ := 100 }) ∧
    (passesGates risingStep ↔ passesGates stepDown) ∧
    (tickmark risingStep = tickmark stepDown ∧ baseline risingStep = baseline stepDown) :=
  have hperm : risingStep.bins.Perm stepDown.bins := List.perm_append_comm
  have h := levels_order_independent sqrtQ risingStep stepDown hperm (by decide)
  ⟨⟨hperm, by decide, by decide!, by decide!⟩, h.2.1, h.1.2.2⟩

/-! ## Unpopulated bins and errors -/

/-- One step of the `max` update sees only the data of the bin. -/
theorem maxStep_sameData (init : ℚ) {a b : Bin} (h : sameData a b) :
    maxStep init a = maxStep init b := by
  unfold maxStep
  by_cases ha : a.entries ≠ 0
  · have hb : b.entries ≠ 0 := h.1 ▸ ha
    simp only [if_pos ha, if_pos hb, h.2 ha]
  · have hb : ¬ b.entries ≠ 0 := h.1 ▸ ha
    simp only [if_neg ha, if_neg hb]

/-- One step of the `min` update sees only the data of the bin. -/
theorem minStep_sameData (init : ℚ) {a b : Bin} (h : sameData a b) :
    minStep init a = minStep init b := by
  unfold minStep
  by_cases ha : a.entries ≠ 0
  · have hb : b.entries ≠ 0 := h.1 ▸ ha
    simp only [if_pos ha, if_pos hb, h.2 ha]
  · have hb : ¬ b.entries ≠ 0 := h.1 ▸ ha
    simp only [if_neg ha, if_neg hb]

/-- The ingestion and classification loops see only the data of the bins. -/
theorem loops_sameData {l₁ l₂ : List Bin} (h : List.Forall₂ sameData l₁ l₂) :
    (∀ init, l₁.foldl maxStep init = l₂.foldl maxStep init) ∧
    (∀ init, l₁.foldl minStep init = l₂.foldl minStep init) ∧
    (∀ thr, classify thr l₁ = classify thr l₂) ∧
    l₁.map Bin.entries = l₂.map Bin.entries ∧
    (l₁.map Bin.content).length = (l₂.map Bin.content).length ∧
    (∀ j, (l₁.map Bin.entries).getD j 0 ≠ 0 →
      (l₁.map Bin.content)[j]? = (l₂.map Bin.content)[j]?) := by
  induction h with
  | nil => simp
  | @cons a b l₁ l₂ hab _ ih =>
    obtain ⟨imax, imin, icls, ient, ilen, icon⟩ := ih
    refine ⟨?_, ?_, ?_, ?_, ?_, ?_⟩
    · intro init
      rw [List.foldl_cons, List.foldl_cons, maxStep_sameData init hab, imax]
    · intro init
      rw [List.foldl_cons, List.foldl_cons, minStep_sameData init hab, imin]
    · intro thr
      simp only [classify, icls thr]
      by_cases ha : a.entries ≠ 0
      · have hb : b.entries ≠ 0 := hab.1 ▸ ha
        simp only [if_pos ha, if_pos hb, hab.2 ha]
      · have hb : ¬ b.entries ≠ 0 := hab.1 ▸ ha
        simp only [if_neg ha, if_neg hb]
    · rw [List.map_cons, List.map_cons, ient, hab.1]
    · simp only [List.map_cons, List.length_cons, ilen]
    · intro j hj
      cases j with
      | zero =>
        have ha : a.entries ≠ 0 := by simpa using hj
        simp [hab.2 ha]
      | succ j =>
        have := icon j (by simpa using hj)
        simpa using this

/-- The body of the edge scan reads contents only next to populated bins. -/
theorem edgeAt_agree (c₁ c₂ : List ℚ) (n : List ℕ) (rms : ℚ) (ibin : ℕ)
    (hagree : ∀ j, n.getD j 0 ≠ 0 → c₁[j]? = c₂[j]?) :
    edgeAt c₁ n rms ibin = edgeAt c₂ n rms ibin := by
  unfold edgeAt
  by_cases h : n.getD (ibin + 1) 0 ≠ 0 ∧ n.getD (ibin - 1) 0 ≠ 0
  · rw [if_pos h, if_pos h, List.getD_eq_getElem?_getD, List.getD_eq_getElem?_getD,
      List.getD_eq_getElem?_getD c₂, List.getD_eq_getElem?_getD c₂, hagree _ h.1, hagree _ h.2]
  · rw [if_neg h, if_neg h]

/-- The window loop reads contents only at populated bins. -/
theorem windowLoop_agree (c₁ c₂ : List ℚ) (n : List ℕ) (floor : ℚ) (e : ℕ)
    (hlen : c₁.length = c₂.length) (hagree : ∀ j, n.getD j 0 ≠ 0 → c₁[j]? = c₂[j]?) :
    ∀ (iis : List ℕ) (valid : Bool),
      windowLoop c₁ n floor e valid iis = windowLoop c₂ n floor e valid iis
  | [], _ => rfl
  | ii :: iis, valid => by
    have hstep : windowStep c₁ n floor e valid ii = windowStep c₂ n floor e valid ii := by
      unfold windowStep
      cases hn : vecAt n (e + ii) with
      | error f => rfl
      | ok m =>
        simp only
        by_cases hm : m ≠ 0
        · have hget : n.getD (e + ii) 0 = m := by
            unfold vecAt at hn
            rw [List.getD_eq_getElem?_getD]
            cases h : n[e + ii]? with
            | none => rw [h] at hn; cases hn
            | some x => rw [h] at hn; cases hn; rfl
          have hc := hagree (e + ii) (by rw [hget]; exact hm)
          have hv : vecAt c₁ (e + ii) = vecAt c₂ (e + ii) := by
            unfold vecAt
            rw [hc, hlen]
          rw [if_pos hm, if_pos hm, hv]
        · rw [if_neg hm, if_neg hm]
    unfold windowLoop
    rw [hstep]
    cases windowStep c₂ n floor e valid ii with
    | error f => rfl
    | ok valid' => exact windowLoop_agree c₁ c₂ n floor e hlen hagree iis valid'

/-- The validation loop reads contents only at populated bins. -/
theorem checkEdges_agree (c₁ c₂ : List ℚ) (n : List ℕ) (floor : ℚ)
    (hlen : c₁.length = c₂.length) (hagree : ∀ j, n.getD j 0 ≠ 0 → c₁[j]? = c₂[j]?) :
    ∀ edges : List (ℕ × ℚ), checkEdges c₁ n floor edges = checkEdges c₂ n floor edges
  | [] => rfl
  | edge :: rest => by
    unfold checkEdges windowValid
    rw [windowLoop_agree c₁ c₂ n floor edge.1 hlen hagree,
      checkEdges_agree c₁ c₂ n floor hlen hagree rest]

/-- C14 (unpopulated bins and errors carry no information): for two histograms of the
same length whose bins agree position by position in the number of entries and, where
populated, in the content (errors and the contents of unpopulated bins are free), and
for the same initial record, `analysis` has the same outcome: the same returned record,
or the same fault where its behaviour is undefined. -/
theorem analysis_sameData (sqrtf : ℚ → ℚ) (h1 h2 : TProfile) (mons : Monitorables)
    (hsame : List.Forall₂ sameData h1.bins h2.bins) :
    analysis sqrtf h1 mons = analysis sqrtf h2 mons := by
  have hn : nbins h1 = nbins h2 := by
    unfold nbins TProfile.GetNbinsX
    rw [hsame.length_eq]
  have hI : List.Forall₂ sameData (ingested h1) (ingested h2) := by
    unfold ingested
    rw [hn]
    exact List.forall₂_take _ hsame
  obtain ⟨imax, imin, icls, ient, ilen, icon⟩ := loops_sameData hI
  have hmax : scanMax h1 = scanMax h2 := imax _
  have hmin : scanMin h1 = scanMin h2 := imin _
  have hrange : range h1 = range h2 := by unfold range; rw [hmax, hmin]
  have hthr : threshold h1 = threshold h2 := by unfold threshold; rw [hmin, hrange]
  have hbase : baseSamples h1 = baseSamples h2 := by
    unfold baseSamples; rw [hthr, icls]
  have htick : tickSamples h1 = tickSamples h2 := by
    unfold tickSamples; rw [hthr, icls]
  have hb : baseline h1 = baseline h2 := by unfold baseline; rw [hbase]
  have ht : tickmark h1 = tickmark h2 := by unfold tickmark; rw [htick]
  have hrms : baseline_rms sqrtf h1 = baseline_rms sqrtf h2 := by
    unfold baseline_rms; rw [hbase]
  have hent : bin_entries h1 = bin_entries h2 := ient
  have hclen : (bin_contents h1).length = (bin_contents h2).length := ilen
  have hagree : ∀ j, (bin_entries h2).getD j 0 ≠ 0 →
      (bin_contents h1)[j]? = (bin_contents h2)[j]? := by
    intro j hj
    rw [← hent] at hj
    exact icon j hj
  have hcand : candidateEdges sqrtf h1 = candidateEdges sqrtf h2 := by
    unfold candidateEdges findEdges
    rw [hn, hent, hrms,
      funext (edgeAt_agree (bin_contents h1) (bin_contents h2) (bin_entries h2)
        (baseline_rms sqrtf h2) · hagree)]
  have hval : validatedEdges sqrtf h1 = validatedEdges sqrtf h2 := by
    unfold validatedEdges
    rw [hent, hb, hrms, hcand]
    exact checkEdges_agree _ _ _ _ hclen hagree _
  unfold analysis
  rw [hclen, hrange, ht, hb, hval]

theorem analysis_sameData_witness :
    (twoEdgesScribbled.bins ≠ twoEdges.bins ∧
      analysis sqrtQ twoEdges markedMons =
        .ok { pllCoarse_ := 2, pllFine_ := 2, delay_ := 50, error_ := 0, base_ := 0,
              peak_ := 100, height_ := 100 }) ∧
    analysis sqrtQ twoEdges markedMons = analysis sqrtQ twoEdgesScribbled markedMons :=
  ⟨by decide!, analysis_sameData sqrtQ twoEdges twoEdgesScribbled markedMons (by decide!)⟩

/-! ## Translation of the contents -/

/-- The ingested bins of a translated histogram are the translated ingested bins. -/
theorem ingested_translate (c : ℚ) (histo : TProfile) :
    ingested (translate c histo) = (ingested histo).map (Bin.shift c) := by
  unfold ingested nbins TProfile.GetNbinsX translate
  simp only [List.length_map, List.map_take]

/-- One step of the `max` update commutes with the translation. -/
theorem maxStep_shift (c init : ℚ) (b : Bin) :
    maxStep (init + c) (b.shift c) = maxStep init b + c := by
  unfold maxStep Bin.shift
  by_cases hb : b.entries ≠ 0
  · by_cases hgt : b.content > init
    · have hgt' : b.content + c > init + c := by linarith
      simp only [if_pos hb, if_pos hgt, if_pos hgt']
    · have hgt' : ¬ b.content + c > init + c := by intro h; exact hgt (by linarith)
      simp only [if_pos hb, if_neg hgt, if_neg hgt']
  · simp only [if_neg hb]

/-- One step of the `min` update commutes with the translation. -/
theorem minStep_shift (c init : ℚ) (b : Bin) :
    minStep (init + c) (b.shift c) = minStep init b + c := by
  unfold minStep Bin.shift
  by_cases hb : b.entries ≠ 0
  · by_cases hlt : b.content < init
    · have hlt' : b.content + c < init + c := by linarith
      simp only [if_pos hb, if_pos hlt, if_pos hlt']
    · have hlt' : ¬ b.content + c < init + c := by intro h; exact hlt (by linarith)
      simp only [if_pos hb, if_neg hlt, if_neg hlt']
  · simp only [if_neg hb]

/-- The `max` loop started from the translated initial value. -/
theorem foldl_maxStep_shift (c : ℚ) (l : List Bin) (init : ℚ) :
    (l.map (Bin.shift c)).foldl maxStep (init + c) = l.foldl maxStep init + c := by
  induction l generalizing init with
  | nil => rfl
  | cons b l ih => rw [List.map_cons, List.foldl_cons, List.foldl_cons, maxStep_shift, ih]

/-- The `min` loop started from the translated initial value. -/
theorem foldl_minStep_shift (c : ℚ) (l : List Bin) (init : ℚ) :
    (l.map (Bin.shift c)).foldl minStep (init + c) = l.foldl minStep init + c := by
  induction l generalizing init with
  | nil => rfl
  | cons b l ih => rw [List.map_cons, List.foldl_cons, List.foldl_cons, minStep_shift, ih]

/-- The `max` loop forgets its initial value once a populated bin lies above it. -/
theorem foldl_maxStep_init (l : List Bin) (i₁ i₂ : ℚ)
    (h : ∃ b ∈ l, b.entries ≠ 0 ∧ i₁ ≤ b.content ∧ i₂ ≤ b.content) :
    l.foldl maxStep i₁ = l.foldl maxStep i₂ := by
  obtain ⟨b, hb, hne, h1, h2⟩ := h
  have key : ∀ j₁ j₂ : ℚ, j₁ ≤ b.content → l.foldl maxStep j₁ ≤ l.foldl maxStep j₂ := by
    intro j₁ j₂ hj
    rcases foldl_maxStep_cases l j₁ with e | ⟨x, hx, hxne, e⟩
    · rw [e]; exact le_trans hj ((foldl_maxStep_ge l j₂).2 b hb hne)
    · rw [e]; exact (foldl_maxStep_ge l j₂).2 x hx hxne
  exact le_antisymm (key i₁ i₂ h1) (key i₂ i₁ h2)

/-- The `min` loop forgets its initial value once a populated bin lies below it. -/
theorem foldl_minStep_init (l : List Bin) (i₁ i₂ : ℚ)
    (h : ∃ b ∈ l, b.entries ≠ 0 ∧ b.content ≤ i₁ ∧ b.content ≤ i₂) :
    l.foldl minStep i₁ = l.foldl minStep i₂ := by
  obtain ⟨b, hb, hne, h1, h2⟩ := h
  have key : ∀ j₁ j₂ : ℚ, j₂ ≤ j₂ → b.content ≤ j₂ → l.foldl minStep j₁ ≤ l.foldl minStep j₂ := by
    intro j₁ j₂ _ hj
    rcases foldl_minStep_cases l j₂ with e | ⟨x, hx, hxne, e⟩
    · rw [e]; exact le_trans ((foldl_minStep_le l j₁).2 b hb hne) hj
    · rw [e]; exact (foldl_minStep_le l j₁).2 x hx hxne
  exact le_antisymm (key i₁ i₂ (le_refl _) h2) (key i₂ i₁ (le_refl _) h1)

/-- Without a populated bin both loops return their initial values. -/
theorem foldl_steps_of_no_populated (l : List Bin) (init : ℚ)
    (h : ∀ b ∈ l, b.entries = 0) :
    l.foldl maxStep init = init ∧ l.foldl minStep init = init := by
  constructor
  · rcases foldl_maxStep_cases l init with e | ⟨x, hx, hxne, _⟩
    · exact e
    · exact absurd (h x hx) hxne
  · rcases foldl_minStep_cases l init with e | ⟨x, hx, hxne, _⟩
    · exact e
    · exact absurd (h x hx) hxne

/-- The classification loop commutes with the translation. -/
theorem classify_shift (c thr : ℚ) (l : List Bin) :
    classify (thr + c) (l.map (Bin.shift c)) =
      ((classify thr l).1.map (· + c), (classify thr l).2.map (· + c)) := by
  induction l with
  | nil => rfl
  | cons b l ih =>
    simp only [List.map_cons, classify, ih]
    have hent : (b.shift c).entries = b.entries := rfl
    have hcon : (b.shift c).content = b.content + c := rfl
    rw [hent, hcon]
    by_cases hb : b.entries ≠ 0
    · by_cases hlt : b.content < thr
      · have hlt' : b.content + c < thr + c := by linarith
        simp only [if_pos hb, if_pos hlt, if_pos hlt', List.map_cons]
      · have hlt' : ¬ b.content + c < thr + c := by intro h; exact hlt (by linarith)
        simp only [if_pos hb, if_neg hlt, if_neg hlt', List.map_cons]
    · simp only [if_neg hb]

/-- Sorting commutes with the translation. -/
theorem sortAscending_shift (c : ℚ) (v : List ℚ) :
    sortAscending (v.map (· + c)) = (sortAscending v).map (· + c) :=
  sortAscending_eq_of_perm_sorted _ _ ((List.perm_insertionSort (· ≤ ·) v).map _)
    ((List.sorted_insertionSort (· ≤ ·) v).map _ (fun _ _ h => add_le_add_right h c))

/-- The level of a non-empty vector commutes with the translation. -/
theorem medianLevel_shift (c : ℚ) (v : List ℚ) (hv : v ≠ []) :
    medianLevel (v.map (· + c)) = medianLevel v + c := by
  have h1 := medianLevel_of_ne_nil (v.map (· + c)) (by simpa using hv)
  have h2 := medianLevel_of_ne_nil v hv
  rw [sortAscending_shift, List.getElem?_map, List.length_map, h2] at h1
  simp only [Option.map_some', Option.some.injEq] at h1
  exact h1.symm

/-- Sum of the translated samples. -/
theorem sum_shift (c : ℚ) (v : List ℚ) : (v.map (· + c)).sum = v.sum + v.length * c := by
  induction v with
  | nil => simp
  | cons x v ih =>
    simp only [List.map_cons, List.sum_cons, List.length_cons, ih, Nat.cast_add, Nat.cast_one]
    ring

/-- Sum of the squares of the translated samples. -/
theorem sum_sq_shift (c : ℚ) (v : List ℚ) :
    ((v.map (· + c)).map (fun x => x * x)).sum =
      (v.map (fun x => x * x)).sum + 2 * c * v.sum + v.length * (c * c) := by
  induction v with
  | nil => simp
  | cons x v ih =>
    simp only [List.map_cons, List.sum_cons, List.length_cons, ih, Nat.cast_add, Nat.cast_one]
    ring

/-- The radicand `E[x^2] - E[x]^2` is unchanged by the translation. -/
theorem variance_shift (c : ℚ) (v : List ℚ) :
    sampleMeanSq (v.map (· + c)) - sampleMean (v.map (· + c)) * sampleMean (v.map (· + c)) =
      sampleMeanSq v - sampleMean v * sampleMean v := by
  by_cases hv : v = []
  · subst hv
    rfl
  · have hv' : v.map (· + c) ≠ [] := by simpa using hv
    have hn : (v.length : ℚ) ≠ 0 := by
      have : 0 < v.length := List.length_pos.2 hv
      exact_mod_cast this.ne'
    unfold sampleMean sampleMeanSq
    rw [if_neg hv, if_neg hv, if_neg hv', if_neg hv', sum_shift, sum_sq_shift, List.length_map]
    field_simp
    ring

/-- The noise estimate is unchanged by the translation. -/
theorem rmsOf_shift (sqrtf : ℚ → ℚ) (c : ℚ) (v : List ℚ) :
    rmsOf sqrtf (sortAscending (v.map (· + c))) = rmsOf sqrtf (sortAscending v) := by
  have hD := variance_shift c v
  have h1 := sampleMean_sortAscending (v.map (· + c))
  have h2 := sampleMean_sortAscending v
  rw [rmsOf_eq, rmsOf_eq, h1.1, h1.2, h2.1, h2.2, hD]
  by_cases hgt : sampleMeanSq v > sampleMean v * sampleMean v
  · have hgt' : sampleMeanSq (v.map (· + c)) >
        sampleMean (v.map (· + c)) * sampleMean (v.map (· + c)) := by linarith
    rw [if_pos hgt, if_pos hgt']
  · have hgt' : ¬ sampleMeanSq (v.map (· + c)) >
        sampleMean (v.map (· + c)) * sampleMean (v.map (· + c)) := by
      intro h; exact hgt (by linarith)
    rw [if_neg hgt, if_neg hgt']

/-- A read of the translated contents. -/
theorem vecAt_map_add (c : ℚ) (v : List ℚ) (j : ℕ) :
    vecAt (v.map (· + c)) j =
      match vecAt v j with
      | .error f => .error f
      | .ok x => .ok (x + c) := by
  unfold vecAt
  rw [List.getElem?_map, List.length_map]
  cases v[j]? with
  | none => rfl
  | some x => rfl

/-- The body of the edge scan is unchanged by the translation. -/
theorem edgeAt_shift (c : ℚ) (contents : List ℚ) (entries : List ℕ) (rms : ℚ) (ibin : ℕ)
    (hlen : entries.length = contents.length) :
    edgeAt (contents.map (· + c)) entries rms ibin = edgeAt contents entries rms ibin := by
  have hget : ∀ j, entries.getD j 0 ≠ 0 →
      (contents.map (· + c)).getD j 0 = contents.getD j 0 + c := by
    intro j hj
    have hlt : j < contents.length := by
      by_contra hcon
      rw [← hlen] at hcon
      rw [List.getD_eq_getElem?_getD, List.getElem?_eq_none (not_lt.1 hcon)] at hj
      exact hj rfl
    rw [List.getD_eq_getElem?_getD, List.getD_eq_getElem?_getD, List.getElem?_map,
      List.getElem?_eq_getElem hlt]
    rfl
  unfold edgeAt
  by_cases h : entries.getD (ibin + 1) 0 ≠ 0 ∧ entries.getD (ibin - 1) 0 ≠ 0
  · rw [if_pos h, if_pos h, hget _ h.1, hget _ h.2]
    simp only [add_sub_add_right_eq_sub]
  · rw [if_neg h, if_neg h]

/-- The window loop is unchanged when contents and floor are translated together. -/
theorem windowLoop_shift (c : ℚ) (contents : List ℚ) (entries : List ℕ) (floor : ℚ) (e : ℕ) :
    ∀ (iis : List ℕ) (valid : Bool),
      windowLoop (contents.map (· + c)) entries (floor + c) e valid iis =
        windowLoop contents entries floor e valid iis
  | [], _ => rfl
  | ii :: iis, valid => by
    have hstep : windowStep (contents.map (· + c)) entries (floor + c) e valid ii =
        windowStep contents entries floor e valid ii := by
      unfold windowStep
      rw [vecAt_map_add]
      cases vecAt entries (e + ii) with
      | error f => rfl
      | ok n =>
        simp only
        by_cases hn : n ≠ 0
        · rw [if_pos hn, if_pos hn]
          cases vecAt contents (e + ii) with
          | error f => rfl
          | ok x =>
            simp only
            by_cases hlt : x < floor
            · rw [if_pos hlt, if_pos (by linarith)]
            · rw [if_neg hlt, if_neg (by intro h; exact hlt (by linarith))]
        · rw [if_neg hn, if_neg hn]
    unfold windowLoop
    rw [hstep]
    cases windowStep contents entries floor e valid ii with
    | error f => rfl
    | ok valid' => exact windowLoop_shift c contents entries floor e iis valid'

/-- The validation loop is unchanged when contents and floor are translated together. -/
theorem checkEdges_shift (c : ℚ) (contents : List ℚ) (entries : List ℕ) (floor : ℚ) :
    ∀ edges : List (ℕ × ℚ),
      checkEdges (contents.map (· + c)) entries (floor + c) edges =
        checkEdges contents entries floor edges
  | [] => rfl
  | edge :: rest => by
    unfold checkEdges windowValid
    rw [windowLoop_shift, checkEdges_shift c contents entries floor rest]

/-- The vector `bin_contents` of a translated histogram. -/
theorem bin_contents_translate (c : ℚ) (histo : TProfile) :
    bin_contents (translate c histo) = (bin_contents histo).map (· + c) := by
  unfold bin_contents
  rw [ingested_translate, List.map_map, List.map_map]
  rfl

/-- The vector `bin_entries` of a translated histogram. -/
theorem bin_entries_translate (c : ℚ) (histo : TProfile) :
    bin_entries (translate c histo) = bin_entries histo := by
  unfold bin_entries
  rw [ingested_translate, List.map_map]
  rfl

/-- With the populated contents of both histograms inside the sentinels, `max` and `min`
of the translated histogram are those of the original plus `c`, whenever a populated bin
was read. -/
theorem scan_translate (c : ℚ) (histo : TProfile)
    (hband : ∀ b ∈ histo.bins, b.entries ≠ 0 →
      -1000000000 ≤ b.content ∧ b.content ≤ 1000000000)
    (hband' : ∀ b ∈ histo.bins, b.entries ≠ 0 →
      -1000000000 ≤ b.content + c ∧ b.content + c ≤ 1000000000)
    (hpop : ∃ b ∈ ingested histo, b.entries ≠ 0) :
    scanMax (translate c histo) = scanMax histo + c ∧
      scanMin (translate c histo) = scanMin histo + c := by
  obtain ⟨b, hb, hne⟩ := hpop
  have hb1 := hband b (ingested_subset histo hb) hne
  have hb2 := hband' b (ingested_subset histo hb) hne
  have hmem : b.shift c ∈ (ingested histo).map (Bin.shift c) := List.mem_map_of_mem _ hb
  have hcon : (b.shift c).content = b.content + c := rfl
  have hent : (b.shift c).entries ≠ 0 := hne
  unfold scanMax scanMin
  rw [ingested_translate]
  constructor
  · rw [foldl_maxStep_init _ (-1000000000) (-1000000000 + c)
      ⟨b.shift c, hmem, hent, by rw [hcon]; exact hb2.1, by rw [hcon]; linarith⟩]
    exact foldl_maxStep_shift c _ _
  · rw [foldl_minStep_init _ 1000000000 (1000000000 + c)
      ⟨b.shift c, hmem, hent, by rw [hcon]; exact hb2.2, by rw [hcon]; linarith⟩]
    exact foldl_minStep_shift c _ _

/-- With the populated contents of both histograms inside the sentinels, the range is
unchanged by the translation. -/
theorem range_translate (c : ℚ) (histo : TProfile)
    (hband : ∀ b ∈ histo.bins, b.entries ≠ 0 →
      -1000000000 ≤ b.content ∧ b.content ≤ 1000000000)
    (hband' : ∀ b ∈ histo.bins, b.entries ≠ 0 →
      -1000000000 ≤ b.content + c ∧ b.content + c ≤ 1000000000) :
    range (translate c histo) = range histo := by
  by_cases hpop : ∃ b ∈ ingested histo, b.entries ≠ 0
  · have h := scan_translate c histo hband hband' hpop
    unfold range
    rw [h.1, h.2]
    ring
  · have hnone : ∀ b ∈ ingested histo, b.entries = 0 := by
      intro b hb
      by_contra hne
      exact hpop ⟨b, hb, hne⟩
    have hnone' : ∀ b ∈ (ingested histo).map (Bin.shift c), b.entries = 0 := by
      intro b hb
      obtain ⟨a, ha, rfl⟩ := List.mem_map.1 hb
      exact hnone a ha
    unfold range scanMax scanMin
    rw [ingested_translate, (foldl_steps_of_no_populated _ _ hnone').1,
      (foldl_steps_of_no_populated _ _ hnone').2, (foldl_steps_of_no_populated _ _ hnone).1,
      (foldl_steps_of_no_populated _ _ hnone).2]

/-- Past the range gate a populated bin was read. -/
theorem exists_populated_of_range (histo : TProfile) (hrange : ¬ range histo < 50) :
    ∃ b ∈ ingested histo, b.entries ≠ 0 := by
  by_contra hpop
  have hnone : ∀ b ∈ ingested histo, b.entries = 0 := by
    intro b hb
    by_contra hne
    exact hpop ⟨b, hb, hne⟩
  apply hrange
  unfold range scanMax scanMin
  rw [(foldl_steps_of_no_populated _ _ hnone).1, (foldl_steps_of_no_populated _ _ hnone).2]
  norm_num

/-- With the populated contents inside the sentinels, both sample vectors are non-empty
past the range gate. -/
theorem samples_ne_nil (histo : TProfile)
    (hband : ∀ b ∈ histo.bins, b.entries ≠ 0 →
      -1000000000 ≤ b.content ∧ b.content ≤ 1000000000)
    (hrange : ¬ range histo < 50) :
    baseSamples histo ≠ [] ∧ tickSamples histo ≠ [] := by
  obtain ⟨b, hb, hne⟩ := exists_populated_of_range histo hrange
  have hb1 := hband b (ingested_subset histo hb) hne
  obtain ⟨bmin, hmin, hminne, hminc⟩ := scanMin_attained histo ⟨b, hb, hne, hb1.2⟩
  obtain ⟨bmax, hmax, hmaxne, hmaxc⟩ := scanMax_attained histo ⟨b, hb, hne, hb1.1⟩
  have hr : 50 ≤ range histo := not_lt.1 hrange
  have hthr : threshold histo = scanMin histo + range histo / 2 := rfl
  have hrng : range histo = scanMax histo - scanMin histo := rfl
  constructor
  · exact List.ne_nil_of_mem ((mem_baseSamples_iff histo _).2
      ⟨bmin, hmin, hminne, by rw [hminc, hthr]; linarith, rfl⟩)
  · exact List.ne_nil_of_mem ((mem_tickSamples_iff histo _).2
      ⟨bmax, hmax, hmaxne, by rw [hmaxc, hthr]; linarith, rfl⟩)

/-- The result assembly with both levels translated. -/
theorem setMonitorables_shift (c : ℚ) (edges : List (ℕ × ℚ)) (b t : ℚ) (mons : Monitorables) :
    setMonitorables edges (b + c) (t + c) mons =
      { setMonitorables edges b t mons with
        base_ := (setMonitorables edges b t mons).base_ + c
        peak_ := (setMonitorables edges b t mons).peak_ + c } := by
  cases edges with
  | nil => simp [setMonitorables]
  | cons first rest => simp [setMonitorables]

/-- With the populated contents of both histograms inside the sentinels and the range
gate passed: levels, noise estimate and validated edges of the translated histogram. -/
theorem stages_translate (sqrtf : ℚ → ℚ) (c : ℚ) (histo : TProfile)
    (hband : ∀ b ∈ histo.bins, b.entries ≠ 0 →
      -1000000000 ≤ b.content ∧ b.content ≤ 1000000000)
    (hband' : ∀ b ∈ histo.bins, b.entries ≠ 0 →
      -1000000000 ≤ b.content + c ∧ b.content + c ≤ 1000000000)
    (hrange : ¬ range histo < 50) :
    baseline (translate c histo) = baseline histo + c ∧
      tickmark (translate c histo) = tickmark histo + c ∧
      baseline_rms sqrtf (translate c histo) = baseline_rms sqrtf histo ∧
      candidateEdges sqrtf (translate c histo) = candidateEdges sqrtf histo ∧
      validatedEdges sqrtf (translate c histo) = validatedEdges sqrtf histo := by
  have hscan := scan_translate c histo hband hband' (exists_populated_of_range histo hrange)
  have hrng := range_translate c histo hband hband'
  have hthr : threshold (translate c histo) = threshold histo + c := by
    unfold threshold
    rw [hscan.2, hrng]
    ring
  have hbase : baseSamples (translate c histo) = (baseSamples histo).map (· + c) := by
    unfold baseSamples
    rw [hthr, ingested_translate, classify_shift]
  have htick : tickSamples (translate c histo) = (tickSamples histo).map (· + c) := by
    unfold tickSamples
    rw [hthr, ingested_translate, classify_shift]
  have hne := samples_ne_nil histo hband hrange
  have hb : baseline (translate c histo) = baseline histo + c := by
    unfold baseline
    rw [hbase, medianLevel_shift c _ hne.1]
  have ht : tickmark (translate c histo) = tickmark histo + c := by
    unfold tickmark
    rw [htick, medianLevel_shift c _ hne.2]
  have hrms : baseline_rms sqrtf (translate c histo) = baseline_rms sqrtf histo := by
    unfold baseline_rms
    rw [hbase, rmsOf_shift]
  have hn : nbins (translate c histo) = nbins histo := by
    rw [← length_ingested, ← length_ingested, ingested_translate, List.length_map]
  have hlen : (bin_entries histo).length = (bin_contents histo).length := by
    rw [length_bin_entries, length_bin_contents]
  have hcand : candidateEdges sqrtf (translate c histo) = candidateEdges sqrtf histo := by
    unfold candidateEdges findEdges
    rw [hn, bin_contents_translate, bin_entries_translate, hrms,
      funext (edgeAt_shift c (bin_contents histo) (bin_entries histo)
        (baseline_rms sqrtf histo) · hlen)]
  refine ⟨hb, ht, hrms, hcand, ?_⟩
  unfold validatedEdges
  rw [hcand, bin_contents_translate, bin_entries_translate, hrms, hb,
    show baseline histo + c + 5 * baseline_rms sqrtf histo =
      baseline histo + 5 * baseline_rms sqrtf histo + c by ring]
  exact checkEdges_shift c _ _ _ _

/-- With the populated contents of both histograms inside the sentinels, the three gates
decide alike for the translated histogram. -/
theorem passesGates_translate (c : ℚ) (histo : TProfile)
    (hband : ∀ b ∈ histo.bins, b.entries ≠ 0 →
      -1000000000 ≤ b.content ∧ b.content ≤ 1000000000)
    (hband' : ∀ b ∈ histo.bins, b.entries ≠ 0 →
      -1000000000 ≤ b.content + c ∧ b.content + c ≤ 1000000000) :
    passesGates (translate c histo) ↔ passesGates histo := by
  have hrng := range_translate c histo hband hband'
  have hlen : (bin_contents (translate c histo)).length = (bin_contents histo).length := by
    rw [bin_contents_translate, List.length_map]
  unfold passesGates
  rw [hlen, hrng]
  by_cases hrange : range histo < 50
  · constructor
    · intro h; exact absurd hrange h.2.1
    · intro h; exact absurd hrange h.2.1
  · have hst := stages_translate (fun x => x) c histo hband hband' hrange
    rw [hst.1, hst.2.1, add_sub_add_right_eq_sub]

/-- C19 as stated fails: `flatLow` (100 populated bins holding 100) does not pass the
range gate and its record is returned as given; with `c = 1999999900` added to every bin
the bins are those of `flatHigh` (all holding 2e9), `min` stays at its initial value 1e9,
the gates are passed and the record is modified. -/
theorem translation_changes_gate_decision :
    (translate 1999999900 flatLow).bins = flatHigh.bins ∧
    (¬ passesGates flatLow ∧ analysis sqrtQ flatLow zeroMons = .ok zeroMons) ∧
    (passesGates (translate 1999999900 flatLow) ∧
      analysis sqrtQ (translate 1999999900 flatLow) zeroMons =
        .ok { zeroMons with base_ := 0, peak_ := 2000000000, height_ := 2000000000 } ∧
      analysis sqrtQ (translate 1999999900 flatLow) zeroMons ≠ .ok zeroMons) := by
  decide!

/-- C19 (translation invariance, amended): let `w'` be `histo` with `c` added to the content
of every bin, and let the populated contents of both `histo` and `w'` lie within the
sentinels `[-1e9, 1e9]`.  Then `w'` passes the three gates iff `histo` does; when it does,
`baseline` and `tickmark` of `w'` are those of `histo` plus `c`, while the noise estimate,
the candidate edges and the outcome of the validation loop are the same; and for every
initial record the outcome of `analysis` for `w'` is that for `histo` with, when the gates
are passed, `c` added to `base_` and `peak_` and every other field (`height_`, `delay_`,
`pllCoarse_`, `pllFine_`, `error_`) unchanged. -/
theorem analysis_translate (sqrtf : ℚ → ℚ) (c : ℚ) (histo : TProfile)
    (hband : ∀ b ∈ histo.bins, b.entries ≠ 0 →
      -1000000000 ≤ b.content ∧ b.content ≤ 1000000000)
    (hband' : ∀ b ∈ histo.bins, b.entries ≠ 0 →
      -1000000000 ≤ b.content + c ∧ b.content + c ≤ 1000000000) :
    (passesGates (translate c histo) ↔ passesGates histo) ∧
    (passesGates histo →
      baseline (translate c histo) = baseline histo + c ∧
      tickmark (translate c histo) = tickmark histo + c ∧
      baseline_rms sqrtf (translate c histo) = baseline_rms sqrtf histo ∧
      candidateEdges sqrtf (translate c histo) = candidateEdges sqrtf histo ∧
      validatedEdges sqrtf (translate c histo) = validatedEdges sqrtf histo) ∧
    (∀ mons : Monitorables,
      analysis sqrtf (translate c histo) mons =
        match analysis sqrtf histo mons with
        | .error f => .error f
        | .ok r =>
          .ok (if passesGates histo then { r with base_ := r.base_ + c, peak_ := r.peak_ + c }
            else r)) := by
  have hg := passesGates_translate c histo hband hband'
  refine ⟨hg, fun h => stages_translate sqrtf c histo hband hband' h.2.1, ?_⟩
  intro mons
  by_cases hgates : passesGates histo
  · have hgates' := hg.2 hgates
    have hst := stages_translate sqrtf c histo hband hband' hgates.2.1
    cases hv : validatedEdges sqrtf histo with
    | error f =>
      have hv' : validatedEdges sqrtf (translate c histo) = .error f := by rw [hst.2.2.2.2, hv]
      simp only [analysis, if_neg hgates.1, if_neg hgates.2.1, if_neg hgates.2.2, hv,
        if_neg hgates'.1, if_neg hgates'.2.1, if_neg hgates'.2.2, hv']
    | ok edges =>
      have hv' : validatedEdges sqrtf (translate c histo) = .ok edges := by
        rw [hst.2.2.2.2, hv]
      rw [analysis_of_validated sqrtf _ mons edges hgates' hv',
        analysis_of_validated sqrtf histo mons edges hgates hv, hst.1, hst.2.1,
        setMonitorables_shift]
      simp only [if_pos hgates]
  · have hgates' : ¬ passesGates (translate c histo) := fun h => hgates (hg.1 h)
    rw [analysis_of_not_gates sqrtf _ mons hgates', analysis_of_not_gates sqrtf histo mons hgates]
    simp only [if_neg hgates]

theorem analysis_translate_witness :
    (analysis sqrtQ risingStep zeroMons =
        .ok { pllCoarse_ := 2, pllFine_ := 1, delay_ := 49, error_ := 0, base_ := 0,
              peak_ := 100, height_ := 100 } ∧
      analysis sqrtQ (translate 1000 risingStep) zeroMons =
        .ok { pllCoarse_ := 2, pllFine_ := 1, delay_ := 49, error_ := 0, base_ := 1000,
              peak_ := 1100, height_ := 100 }) ∧
    (passesGates (translate 1000 risingStep) ↔ passesGates risingStep) :=
  ⟨by decide!, (analysis_translate sqrtQ 1000 risingStep (by decide!) (by decide!)).1⟩

/-! ## The two-plateau scenario -/

/-- The squares of samples within `100 ± 2` are bounded through their sum. -/
theorem sum_sq_le_of_near_hundred (v : List ℚ) (hv : ∀ x ∈ v, 98 ≤ x ∧ x ≤ 102) :
    (v.map (fun x => x * x)).sum ≤ 200 * v.sum - 9996 * v.length := by
  induction v with
  | nil => simp
  | cons x v ih =>
    have hx := hv x (List.mem_cons_self _ _)
    have hrest := ih (fun y hy => hv y (List.mem_cons_of_mem _ hy))
    simp only [List.map_cons, List.sum_cons, List.length_cons, Nat.cast_add, Nat.cast_one]
    nlinarith [mul_nonneg (sub_nonneg.2 hx.1) (sub_nonneg.2 hx.2)]

/-- The radicand of samples within `100 ± 2` is at most 4. -/
theorem variance_le_four (v : List ℚ) (hv : ∀ x ∈ v, 98 ≤ x ∧ x ≤ 102) :
    sampleMeanSq v - sampleMean v * sampleMean v ≤ 4 := by
  by_cases hnil : v = []
  · subst hnil
    simp [sampleMean, sampleMeanSq]
  · have hpos : (0 : ℚ) < v.length := by
      have : 0 < v.length := List.length_pos.2 hnil
      exact_mod_cast this
    have hsum := sum_sq_le_of_near_hundred v hv
    have hq : (v.map (fun x => x * x)).sum / v.length ≤ 200 * (v.sum / v.length) - 9996 := by
      rw [div_le_iff₀ hpos]
      have : (200 * (v.sum / v.length) - 9996) * (v.length : ℚ) =
          200 * v.sum - 9996 * v.length := by
        field_simp
        ring
      rw [this]
      exact hsum
    unfold sampleMean sampleMeanSq
    rw [if_neg hnil, if_neg hnil]
    nlinarith [sq_nonneg (v.sum / v.length - 100)]

/-- The noise estimate of samples within `100 ± 2` is at most 2, for a square root that
maps `(0, 4]` into values at most 2. -/
theorem rmsOf_le_two (sqrtf : ℚ → ℚ) (hsqrt : ∀ x, 0 < x → x ≤ 4 → sqrtf x ≤ 2) (v : List ℚ)
    (hv : ∀ x ∈ v, 98 ≤ x ∧ x ≤ 102) : rmsOf sqrtf (sortAscending v) ≤ 2 := by
  have hm := sampleMean_sortAscending v
  rw [rmsOf_eq, hm.1, hm.2]
  by_cases hgt : sampleMeanSq v > sampleMean v * sampleMean v
  · rw [if_pos hgt]
    exact hsqrt _ (sub_pos.2 hgt) (variance_le_four v hv)
  · rw [if_neg hgt]
    norm_num

/-- The downward search returns a number whose square is at most `n`. -/
theorem isqrtAux_sq_le (n : ℕ) : ∀ k, isqrtAux n k * isqrtAux n k ≤ n
  | 0 => Nat.zero_le _
  | k + 1 => by
    unfold isqrtAux
    by_cases h : (k + 1) * (k + 1) ≤ n
    · rw [if_pos h]; exact h
    · rw [if_neg h]; exact isqrtAux_sq_le n k

/-- The rounded-down stand-in maps `(0, 4]` into values at most 2. -/
theorem sqrtDown_le_two (x : ℚ) (h0 : 0 < x) (h4 : x ≤ 4) : sqrtDown x ≤ 2 := by
  have hd : (0 : ℚ) < x.den := by exact_mod_cast x.pos
  have hx : (x.num : ℚ) / x.den = x := Rat.num_div_den x
  have hnum : (x.num : ℚ) ≤ 4 * x.den := by
    rw [← hx, div_le_iff₀ hd] at h4
    exact h4
  have hnum0 : 0 ≤ x.num := (Rat.num_pos.2 h0).le
  have hto : (x.num.toNat : ℤ) = x.num := Int.toNat_of_nonneg hnum0
  have hnat : x.num.toNat ≤ 4 * x.den := by
    have h1 : (x.num : ℤ) ≤ 4 * (x.den : ℤ) := by exact_mod_cast hnum
    have h2 : (x.num.toNat : ℤ) ≤ 4 * (x.den : ℤ) := by rw [hto]; exact h1
    exact_mod_cast h2
  have hsq := isqrtAux_sq_le (x.num.toNat * x.den) (x.num.toNat * x.den)
  have hr : isqrt (x.num.toNat * x.den) ≤ 2 * x.den := by
    unfold isqrt
    by_contra hcon
    have hlt : 2 * x.den < isqrtAux (x.num.toNat * x.den) (x.num.toNat * x.den) := not_le.1 hcon
    have h3 : x.num.toNat * x.den ≤ 4 * x.den * x.den := Nat.mul_le_mul_right _ hnat
    nlinarith
  unfold sqrtDown
  rw [div_le_iff₀ hd]
  exact_mod_cast hr

/-- The bins of the scenario, as the analysis reads them. -/
theorem twoPlateaus_bins (histo : TProfile) (h : twoPlateaus histo) :
    ingested histo = histo.bins ∧ nbins histo = 200 ∧
    (∀ i, i < 100 → ∃ b, (ingested histo)[i]? = some b ∧ b.entries = 10 ∧
      98 ≤ b.content ∧ b.content ≤ 102) ∧
    (∀ i, 100 ≤ i → i < 200 → ∃ b, (ingested histo)[i]? = some b ∧ b.entries = 10 ∧
      498 ≤ b.content ∧ b.content ≤ 502) ∧
    (∀ b ∈ ingested histo, b.entries = 10 ∧
      ((98 ≤ b.content ∧ b.content ≤ 102) ∨ (498 ≤ b.content ∧ b.content ≤ 502))) := by
  obtain ⟨hlen, hlo, hhi⟩ := h
  have hN : histo.GetNbinsX < 65536 := by unfold TProfile.GetNbinsX; omega
  have hI := ingested_eq_bins histo hN
  have hn : nbins histo = 200 := by rw [← length_ingested, hI, hlen]
  refine ⟨hI, hn, ?_, ?_, ?_⟩
  · intro i hi
    have hlt : i < histo.bins.length := by omega
    refine ⟨histo.bins[i], by rw [hI]; exact List.getElem?_eq_getElem hlt, ?_⟩
    apply hlo
    apply List.getElem?_mem
    rw [List.getElem?_take_of_lt hi]
    exact List.getElem?_eq_getElem hlt
  · intro i hi1 hi2
    have hlt : i < histo.bins.length := by omega
    refine ⟨histo.bins[i], by rw [hI]; exact List.getElem?_eq_getElem hlt, ?_⟩
    apply hhi
    apply List.getElem?_mem
    rw [List.getElem?_drop, show 100 + (i - 100) = i by omega]
    exact List.getElem?_eq_getElem hlt
  · intro b hb
    rw [hI, ← List.take_append_drop 100 histo.bins, List.mem_append] at hb
    rcases hb with hb | hb
    · exact ⟨(hlo b hb).1, Or.inl (hlo b hb).2⟩
    · exact ⟨(hhi b hb).1, Or.inr (hhi b hb).2⟩

/-- In the scenario the extremes, the classified samples and the two levels stay on their
plateaus, and the three gates are passed. -/
theorem twoPlateaus_levels (histo : TProfile) (h : twoPlateaus histo) :
    (∀ x ∈ baseSamples histo, 98 ≤ x ∧ x ≤ 102) ∧
    (∀ x ∈ tickSamples histo, 498 ≤ x ∧ x ≤ 502) ∧
    (98 ≤ baseline histo ∧ baseline histo ≤ 102) ∧
    (498 ≤ tickmark histo ∧ tickmark histo ≤ 502) ∧
    passesGates histo := by
  obtain ⟨-, hn, hlo, hhi, hall⟩ := twoPlateaus_bins histo h
  obtain ⟨b0, hb0, he0, hl0, hu0⟩ := hlo 0 (by norm_num)
  obtain ⟨b1, hb1, he1, hl1, hu1⟩ := hhi 100 (le_refl _) (by norm_num)
  have hm0 : b0 ∈ ingested histo := List.getElem?_mem hb0
  have hm1 : b1 ∈ ingested histo := List.getElem?_mem hb1
  have hne0 : b0.entries ≠ 0 := by rw [he0]; norm_num
  have hne1 : b1.entries ≠ 0 := by rw [he1]; norm_num
  have hmin_le : scanMin histo ≤ 102 :=
    le_trans ((foldl_minStep_le (ingested histo) 1000000000).2 b0 hm0 hne0) hu0
  have hmax_ge : 498 ≤ scanMax histo :=
    le_trans hl1 ((foldl_maxStep_ge (ingested histo) (-1000000000)).2 b1 hm1 hne1)
  have hmin_ge : 98 ≤ scanMin histo := by
    obtain ⟨b, hb, -, hc⟩ := scanMin_attained histo ⟨b0, hm0, hne0, by linarith⟩
    rw [← hc]
    rcases (hall b hb).2 with hr | hr
    · exact hr.1
    · linarith [hr.1]
  have hmax_le : scanMax histo ≤ 502 := by
    obtain ⟨b, hb, -, hc⟩ := scanMax_attained histo ⟨b1, hm1, hne1, by linarith⟩
    rw [← hc]
    rcases (hall b hb).2 with hr | hr
    · linarith [hr.2]
    · exact hr.2
  have hrng : range histo = scanMax histo - scanMin histo := rfl
  have hthr : threshold histo = scanMin histo + range histo / 2 := rfl
  have hthr_ge : 298 ≤ threshold histo := by rw [hthr, hrng]; linarith
  have hthr_le : threshold histo ≤ 302 := by rw [hthr, hrng]; linarith
  have hbase : ∀ x ∈ baseSamples histo, 98 ≤ x ∧ x ≤ 102 := by
    intro x hx
    obtain ⟨b, hb, -, hlt, rfl⟩ := (mem_baseSamples_iff histo x).1 hx
    rcases (hall b hb).2 with hr | hr
    · exact hr
    · linarith [hr.1]
  have htick : ∀ x ∈ tickSamples histo, 498 ≤ x ∧ x ≤ 502 := by
    intro x hx
    obtain ⟨b, hb, -, hle, rfl⟩ := (mem_tickSamples_iff histo x).1 hx
    rcases (hall b hb).2 with hr | hr
    · linarith [hr.2]
    · exact hr
  have hbne : baseSamples histo ≠ [] :=
    List.ne_nil_of_mem ((mem_baseSamples_iff histo _).2 ⟨b0, hm0, hne0, by linarith, rfl⟩)
  have htne : tickSamples histo ≠ [] :=
    List.ne_nil_of_mem ((mem_tickSamples_iff histo _).2 ⟨b1, hm1, hne1, by linarith, rfl⟩)
  have hb := hbase _ (medianLevel_mem _ hbne)
  have ht := htick _ (medianLevel_mem _ htne)
  refine ⟨hbase, htick, hb, ht, ?_, ?_, ?_⟩
  · rw [length_bin_contents, hn]; norm_num
  · rw [hrng]; intro hc; linarith
  · intro hc
    have h1 : 98 ≤ baseline histo ∧ baseline histo ≤ 102 := hb
    have h2 : 498 ≤ tickmark histo ∧ tickmark histo ≤ 502 := ht
    linarith [h1.2, h2.1]

/-- In the scenario, for a square root that maps `(0, 4]` into values at most 2, the
noise estimate is at most 2 and the bins 99 and 100 are keys of the edge map. -/
theorem twoPlateaus_edges (sqrtf : ℚ → ℚ) (hsqrt : ∀ x, 0 < x → x ≤ 4 → sqrtf x ≤ 2)
    (histo : TProfile) (h : twoPlateaus histo) :
    baseline_rms sqrtf histo ≤ 2 ∧
    99 ∈ (candidateEdges sqrtf histo).map Prod.fst ∧
    100 ∈ (candidateEdges sqrtf histo).map Prod.fst := by
  obtain ⟨-, hn, hlo, hhi, -⟩ := twoPlateaus_bins histo h
  have hrms : baseline_rms sqrtf histo ≤ 2 :=
    rmsOf_le_two sqrtf hsqrt _ (twoPlateaus_levels histo h).1
  have key : ∀ i, 98 ≤ i → i ≤ 99 →
      (i + 1) ∈ (candidateEdges sqrtf histo).map Prod.fst := by
    intro i hi1 hi2
    obtain ⟨a, ha, hea, -, hua⟩ := hlo i (by omega)
    obtain ⟨b, hb, heb, hlb, -⟩ := hhi (i + 2) (by omega) (by omega)
    refine List.mem_map.2 ⟨(i + 1, b.content - a.content), ?_, rfl⟩
    unfold candidateEdges
    rw [mem_findEdges_iff]
    simp only [Nat.add_sub_cancel]
    rw [getD_bin_entries histo _ _ hb, getD_bin_entries histo _ _ ha,
      getD_bin_contents histo _ _ hb, getD_bin_contents histo _ _ ha, hn, hea, heb]
    refine ⟨⟨by omega, by omega⟩, by norm_num, by norm_num, rfl, ?_⟩
    show b.content - a.content > 5 * baseline_rms sqrtf histo
    linarith
  exact ⟨hrms, key 98 (le_refl _) (by norm_num), key 99 (by norm_num) (le_refl _)⟩

/-- The analysis uses the square root only through the noise estimate. -/
theorem analysis_congr_rms (f g : ℚ → ℚ) (histo : TProfile) (mons : Monitorables)
    (h : baseline_rms f histo = baseline_rms g histo) :
    analysis f histo mons = analysis g histo mons := by
  unfold analysis validatedEdges candidateEdges
  rw [h]

/-- The noise estimate of `noisyStep` is the square root of `49/2500`. -/
theorem baseline_rms_noisyStep (f : ℚ → ℚ) : baseline_rms f noisyStep = f (49 / 2500) := by
  have h1 : sampleMean (sortAscending (baseSamples noisyStep)) = 5001 / 50 := by decide!
  have h2 : sampleMeanSq (sortAscending (baseSamples noisyStep)) = 500201 / 50 := by decide!
  unfold baseline_rms
  rw [rmsOf_eq, h1, h2]
  norm_num

/-- C13 as stated fails: `noisyStep` is an instance of the scenario (bins 0..99 hold 100
or 101, bins 100..199 hold 500, 10 entries each).  Its noise estimate is
`sqrt (49/2500) = 7/50`, so the derivative 1 at bin 89 exceeds `5 * rms = 7/10`; the window
of that edge (bins 99 .. 128) holds no bin below `baseline + 5*rms = 100.7`, every edge is
valid and in range, and the first edge is bin 89: `pllCoarse_ = 3`, `pllFine_ = 17`. -/
theorem scenario_first_edge_at_89 :
    twoPlateaus noisyStep ∧
    (sqrtQ (49 / 2500) = 7 / 50 ∧ (7 / 50 : ℚ) * (7 / 50) = 49 / 2500) ∧
    validatedEdges sqrtQ noisyStep = .ok [(89, 1), (98, 1), (99, 400), (100, 399)] ∧
    (∀ sqrtf : ℚ → ℚ, sqrtf (49 / 2500) = 7 / 50 →
      analysis sqrtf noisyStep zeroMons =
        .ok { pllCoarse_ := 3, pllFine_ := 17, delay_ := 89, error_ := 0, base_ := 100,
              peak_ := 500, height_ := 400 }) := by
  have hq : sqrtQ (49 / 2500) = 7 / 50 := by decide!
  refine ⟨by decide!, ⟨hq, by norm_num⟩, by decide!, ?_⟩
  intro sqrtf hs
  have hr : baseline_rms sqrtf noisyStep = baseline_rms sqrtQ noisyStep := by
    rw [baseline_rms_noisyStep, baseline_rms_noisyStep, hs, hq]
  rw [analysis_congr_rms sqrtf sqrtQ noisyStep zeroMons hr]
  decide!

/-- C13 (end-to-end scenario, amended): for every histogram of the scenario and a square
root that maps `(0, 4]` into values at most 2: the three gates are passed, `baseline` lies
in `[98, 102]` and `tickmark` in `[498, 502]`, and the bins 99 and 100 are keys of the edge
map; whenever the validation loop completes, `analysis` returns a record with `base_` in
`[98, 102]`, `peak_` in `[498, 502]`, `height_ = peak_ - base_`, `error_ = 0`, at least one
valid edge, `delay_` the first of them, a bin in `1 .. 99`, `pllCoarse_ = delay_ / 24 <= 4`
and `pllFine_ = delay_ % 24`. -/
theorem scenario_result (sqrtf : ℚ → ℚ) (hsqrt : ∀ x, 0 < x → x ≤ 4 → sqrtf x ≤ 2)
    (histo : TProfile) (h : twoPlateaus histo) :
    passesGates histo ∧
    (98 ≤ baseline histo ∧ baseline histo ≤ 102) ∧
    (498 ≤ tickmark histo ∧ tickmark histo ≤ 502) ∧
    (99 ∈ (candidateEdges sqrtf histo).map Prod.fst ∧
      100 ∈ (candidateEdges sqrtf histo).map Prod.fst) ∧
    (∀ (edges : List (ℕ × ℚ)) (mons : Monitorables),
      validatedEdges sqrtf histo = .ok edges →
      ∃ r, analysis sqrtf histo mons = .ok r ∧
        (98 ≤ r.base_ ∧ r.base_ ≤ 102) ∧ (498 ≤ r.peak_ ∧ r.peak_ ≤ 502) ∧
        r.height_ = r.peak_ - r.base_ ∧ r.error_ = 0 ∧ edges ≠ [] ∧
        (1 ≤ r.delay_ ∧ r.delay_ ≤ 99) ∧
        r.pllCoarse_ = r.delay_ / 24 ∧ r.pllFine_ = r.delay_ % 24 ∧ r.pllCoarse_ ≤ 4) := by
  obtain ⟨-, -, hb, ht, hgates⟩ := twoPlateaus_levels histo h
  obtain ⟨-, h99, h100⟩ := twoPlateaus_edges sqrtf hsqrt histo h
  refine ⟨hgates, hb, ht, ⟨h99, h100⟩, ?_⟩
  intro edges mons hedges
  have hkeys := validatedEdges_keys sqrtf histo edges hedges
  have heq : edges = candidateEdges sqrtf histo :=
    checkEdges_ok _ _ _ _ _ hedges
  rw [← heq] at h99
  refine ⟨_, analysis_of_validated sqrtf histo mons edges hgates hedges, ?_⟩
  cases edges with
  | nil => exact absurd h99 (List.not_mem_nil _)
  | cons first rest =>
    have hfirst := hkeys.2 first (List.mem_cons_self _ _)
    have hle : first.1 ≤ 99 := first_key_le hkeys.1 99 h99
    have hdiv : first.1 / 24 ≤ 4 := by omega
    exact ⟨hb, ht, rfl, rfl, List.cons_ne_nil _ _, ⟨hfirst.1, hle⟩, rfl, rfl, hdiv⟩

theorem scenario_result_witness :
    (twoPlateaus cleanStep ∧
      validatedEdges sqrtDown cleanStep = .ok [(99, 400), (100, 400)] ∧
      analysis sqrtDown cleanStep zeroMons =
        .ok { pllCoarse_ := 4, pllFine_ := 3, delay_ := 99, error_ := 0, base_ := 100,
              peak_ := 500, height_ := 400 }) ∧
    passesGates cleanStep ∧
    (98 ≤ baseline cleanStep ∧ baseline cleanStep ≤ 102) ∧
    (498 ≤ tickmark cleanStep ∧ tickmark cleanStep ≤ 502) :=
  have h := scenario_result sqrtDown sqrtDown_le_two cleanStep (by decide!)
  ⟨by decide!, h.1, h.2.1, h.2.2.1⟩

end ApvTimingAnalysis
